import Mathlib

/-!
# Verification of the MSMWSL dual-chain vehicular consensus core

A shallow embedding, in Lean 4, of the Go sources of the repository
(packages `reputation`, `emergency`, `config` and the node runtime),
together with proofs and refutations of the specification's claims.

Modelling conventions:
* Go `float64` values are modelled as real numbers (`ℝ`) where the
  transcendental functions `math.Exp` / `math.Pow` are involved
  (urgency scorer, reputation engine), and as rationals (`ℚ`) where only
  ordering and addition matter (mempool urgencies, block total urgency),
  so that those parts stay executable and decidable.
* Go `time.Time` values are modelled by their second offsets (`ℝ` or `ℚ`);
  `t1.Sub(t2).Seconds()` becomes subtraction, `After` becomes `<`.
* Go maps are modelled by association lists / key lists in first-insertion
  order; all numeric folds over maps in the Go code are sums or maxima,
  which are iteration-order independent once floats are read as reals.
* SHA-256 and the JSON header serialisation are opaque to every claim, so
  `CalculateHash` / the transaction-id hash are parameters of the block
  definitions; every theorem about blocks is proved for an arbitrary such
  function.
-/

namespace MSMWSL

/-! ## Urgency scorer (src/emergency/transaction.go, CalculateUrgencyDegree)

Go source:
```
Tc := tx.DeadlineTime.Sub(tx.ArrivalTime).Seconds()
TrMinusTu := tx.ArrivalTime.Sub(tx.ProductTime).Seconds()
if TrMinusTu > 0 { E = math.Exp(-Tc / TrMinusTu) } else { E = 0.1 }
tx.UrgencyDegree = E * math.Exp(cfg.Omega*theta)
```
with `theta := float64(tx.Theta)`, `tx.Theta : int` a count. -/

/-- The factor `E` of `CalculateUrgencyDegree`: `exp(-Tc/(Tr-Tu))` when
`ta - tp > 0`, else the fallback constant `0.1`.  Arguments are the produced /
arrival / deadline times in seconds. -/
noncomputable def calculateE (tp ta td : ℝ) : ℝ :=
  if ta - tp > 0 then Real.exp (-(td - ta) / (ta - tp)) else 0.1

/-- The method `CalculateUrgencyDegree`: `ED = E * exp(ω θ)`. -/
noncomputable def calculateUrgencyDegree (tp ta td : ℝ) (theta : ℕ) (omega : ℝ) : ℝ :=
  calculateE tp ta td * Real.exp (omega * theta)

/-! ## Priority mempool (src/emergency/transaction.go)

`TransactionPool` holds a slice of `*EmergencyTransaction` in insertion order.
`GetTopKTransactions(k)` copies the slice, bubble-sorts the copy by
`UrgencyDegree` descending (swapping adjacent elements exactly when
`sorted[j].UrgencyDegree < sorted[j+1].UrgencyDegree`, inner pass `i` doing
`len-1-i` comparisons), takes the first `k` entries (clamping `k` to the
length), and calls `RemoveTransactions`, which drops from the pool every
transaction whose `ID` occurs among the IDs of the removed slice. -/

/-- The fields of `EmergencyTransaction` that take part in the mempool
operations.  `Data`, `Timestamp`, `ProductTime`, `DeadlineTime`, `Priority`
and `Theta` are never read by the pool, so they are omitted; `UrgencyDegree`
is computed at ingress (see `calculateUrgencyDegree`) and only compared here,
so it is modelled as a rational to keep the pool operations decidable. -/
structure GoTx where
  ID : String
  VehicleID : String
  ArrivalTime : ℚ
  UrgencyDegree : ℚ
deriving DecidableEq, Repr

/-- One inner pass of the Go bubble sort, performing at most `b` adjacent
compare-and-swap steps from the head: `if sorted[j].UrgencyDegree <
sorted[j+1].UrgencyDegree then swap`. -/
def bubblePass : ℕ → List GoTx → List GoTx
  | _, [] => []
  | _, [x] => [x]
  | 0, l => l
  | b + 1, x :: y :: r =>
    if x.UrgencyDegree < y.UrgencyDegree then y :: bubblePass b (x :: r)
    else x :: bubblePass b (y :: r)

/-- The outer loop of the Go bubble sort: passes with `n-1, n-2, ..., 1`
comparisons (`for i...; for j := 0; j < len-i-1; j++`). -/
def bubbleLoop : ℕ → List GoTx → List GoTx
  | 0, l => l
  | b + 1, l => bubbleLoop b (bubblePass (b + 1) l)

/-- The in-place descending bubble sort of `GetTopKTransactions`. -/
def bubbleSortGo (l : List GoTx) : List GoTx := bubbleLoop (l.length - 1) l

/-- The method `RemoveTransactions`: keep exactly the pool entries whose `ID`
is not among the IDs of `txs` (the Go code materialises the IDs of `txs` in a
`toRemove` set first). -/
def removeTransactions (pool txs : List GoTx) : List GoTx :=
  pool.filter (fun tx => decide (tx.ID ∉ txs.map GoTx.ID))

/-- The method `GetTopKTransactions`: returns the drained transactions and the
pool that remains.  An empty pool returns `nil` at once; otherwise the pool is
copied, sorted, the first `k` entries (with `k` clamped to the length, which
is what `List.take` does) are returned and removed. -/
def getTopKTransactions (pool : List GoTx) (k : ℕ) : List GoTx × List GoTx :=
  if pool = [] then ([], pool)
  else
    let sorted := bubbleSortGo pool
    let result := sorted.take k
    (result, removeTransactions pool result)

/-- Descending-urgency order used in the pool specifications. -/
def urgGE (a b : GoTx) : Prop := b.UrgencyDegree ≤ a.UrgencyDegree

/-- An unbounded adjacent-swap pass, used only to reason about `bubblePass`:
`bubblePass b l` is a full pass over the first `b+1` elements. -/
def fullPass : List GoTx → List GoTx
  | [] => []
  | [x] => [x]
  | x :: y :: r =>
    if x.UrgencyDegree < y.UrgencyDegree then y :: fullPass (x :: r)
    else x :: fullPass (y :: r)

/-- Invariant of the Go outer loop before the pass with bound `b+1` runs:
everything after position `b+1` is already in its final (descending) place
and is dominated by the first `b+1` elements. -/
def poolSortedAfter (b : ℕ) (l : List GoTx) : Prop :=
  (l.drop (b + 1)).Sorted urgGE ∧
  ∀ x ∈ l.take (b + 1), ∀ y ∈ l.drop (b + 1), y.UrgencyDegree ≤ x.UrgencyDegree


/-! ## Priority block & chain (src/emergency/block.go)

SHA-256 and the JSON serialisation of the header are opaque to every claim,
so they enter as function parameters: `shaHex` stands for
`hex(sha256(concatenated tx ids))` and `headerHash` for
`hex(sha256(json({Index, Timestamp, PrevHash, MerkleRoot})))`.  Timestamps
appear only through their serialisation, so they are kept as strings. -/

/-- The structure `EmergencyBlock`.  `TimestampStr` is the RFC3339Nano
rendering of the Go `time.Time` field. -/
structure EBlock where
  Index : Int
  TimestampStr : String
  PrevHash : String
  Hash : String
  MerkleRoot : String
  Signature : String
  ValidatorIDs : List String
  Transactions : List GoTx
  TotalUrgency : ℚ
deriving DecidableEq, Repr

/-- The method `CalculateMerkleRoot`: the empty string for an empty block,
otherwise the hash of the concatenated transaction IDs. -/
def calculateMerkleRoot (shaHex : String → String) (b : EBlock) : String :=
  if b.Transactions = [] then ""
  else shaHex (String.join (b.Transactions.map GoTx.ID))

/-- The method `CalculateTotalUrgency`: the sum of the transactions'
urgency degrees. -/
def calculateTotalUrgency (b : EBlock) : ℚ :=
  (b.Transactions.map GoTx.UrgencyDegree).sum

/-- The method `CalculateHash`: the hash of the serialised header
`{Index, Timestamp, PrevHash, MerkleRoot}` (without the hash field). -/
def calculateHash (headerHash : Int → String → String → String → String)
    (b : EBlock) : String :=
  headerHash b.Index b.TimestampStr b.PrevHash b.MerkleRoot

/-- The constructor `NewEmergencyBlock`: fills the plain fields, then computes
the merkle root, the total urgency and finally the hash. -/
def newEmergencyBlock (shaHex : String → String)
    (headerHash : Int → String → String → String → String)
    (index : Int) (nowStr : String) (prevHash : String)
    (txs : List GoTx) (validatorIDs : List String) : EBlock :=
  let b0 : EBlock :=
    { Index := index, TimestampStr := nowStr, PrevHash := prevHash,
      Hash := "", MerkleRoot := "", Signature := "",
      ValidatorIDs := validatorIDs, Transactions := txs, TotalUrgency := 0 }
  let b1 := { b0 with MerkleRoot := calculateMerkleRoot shaHex b0 }
  let b2 := { b1 with TotalUrgency := calculateTotalUrgency b1 }
  { b2 with Hash := calculateHash headerHash b2 }

/-- The genesis block installed by `NewEmergencyBlockchain`: index 0,
prev-hash "0", synthetic hash "genesis", empty transaction set.  Its
timestamp (`time.Now()`) is a parameter. -/
def genesisBlock (t0 : String) : EBlock :=
  { Index := 0, TimestampStr := t0, PrevHash := "0", Hash := "genesis",
    MerkleRoot := "", Signature := "", ValidatorIDs := [],
    Transactions := [], TotalUrgency := 0 }

/-- The method `GetLatestBlock` (`nil` on an empty chain). -/
def getLatestBlock (chain : List EBlock) : Option EBlock := chain.getLast?

/-- The method `VerifyBlock`, with its five early returns.  On an empty chain
the Go code would dereference a nil `GetLatestBlock()`; that state is
unreachable (`NewEmergencyBlockchain` installs the genesis block), and the
`none` branch totalises it harmlessly. -/
def verifyBlock (shaHex : String → String)
    (headerHash : Int → String → String → String → String)
    (chain : List EBlock) (b : EBlock) : Bool :=
  match getLatestBlock chain with
  | none => false
  | some latest =>
    if b.Index ≠ latest.Index + 1 then false
    else if b.PrevHash ≠ latest.Hash then false
    else if b.MerkleRoot ≠ calculateMerkleRoot shaHex b then false
    else if b.Hash ≠ calculateHash headerHash b then false
    else if b.TotalUrgency ≠ calculateTotalUrgency b then false
    else true

/-! ## Node runtime and PBFT vote handling (src/unnamed/part_000, EmergencyNode)

Vote tables (`map[string]map[string]bool`) are modelled as association lists
from block hash to the list of distinct voter IDs; `prePrepareReceived`
(`map[string]*ConsensusMessage`) as an association list to messages.  The
reputation-feedback hook `recordEmergencyInteractions` only appends to the
node's interaction log with a randomised verdict and touches neither the
chain, the pool nor the vote tables; no claim depends on it, so the log is
omitted from the node state. -/

/-- PBFT message phases (`PrePrepare`, `Prepare`, `Commit`). -/
inductive GoMsgType where
  | prePrepare
  | prepare
  | commit
deriving DecidableEq, Repr

/-- The structure `ConsensusMessage` (the `Type` field is rendered `MType`).
The Go `Timestamp` field is the send time's serialisation. -/
structure ConsensusMsg where
  MType : GoMsgType
  BlockHash : String
  Block : EBlock
  From : String
  TimestampStr : String
deriving DecidableEq, Repr

/-- Look up the voter set recorded for a block hash (empty if absent). -/
def lookupVotes (tbl : List (String × List String)) (h : String) : List String :=
  ((tbl.find? (fun p => p.1 == h)).map Prod.snd).getD []

/-- Remove the entry for a block hash (the Go `delete`). -/
def deleteEntry {α : Type} (tbl : List (String × α)) (h : String) : List (String × α) :=
  tbl.filter (fun p => !(p.1 == h))

/-- Record `votes[h][voter] = true` (idempotent set insertion, creating the
inner map if needed). -/
def addVote (tbl : List (String × List String)) (h voter : String) :
    List (String × List String) :=
  let cur := lookupVotes tbl h
  deleteEntry tbl h ++ [(h, if voter ∈ cur then cur else cur ++ [voter])]

/-- Overwrite the message stored for a block hash
(`prePrepareReceived[hash] = &msg`). -/
def setEntry {α : Type} (tbl : List (String × α)) (h : String) (v : α) :
    List (String × α) :=
  deleteEntry tbl h ++ [(h, v)]

/-- Look up the stored message for a block hash. -/
def lookupEntry {α : Type} (tbl : List (String × α)) (h : String) : Option α :=
  (tbl.find? (fun p => p.1 == h)).map Prod.snd

/-- The Byzantine budget `f = (N-1)/3` (`N` the committee size; the Go `int`
division and the `ℕ` division agree on every `N ≥ 0`). -/
def byzF (N : ℕ) : ℕ := (N - 1) / 3

/-- The mutable state of an `EmergencyNode`: identity, committee-membership
flag, its copy of the chain, its mempool, and the three PBFT tables. -/
structure ENodeState where
  ID : String
  IsValidator : Bool
  chain : List EBlock
  pool : List GoTx
  prePrepareReceived : List (String × ConsensusMsg)
  prepareVotes : List (String × List String)
  commitVotes : List (String × List String)
deriving DecidableEq, Repr

/-- A freshly constructed node (`NewEmergencyNode` over
`NewEmergencyBlockchain`): genesis chain, empty pool, empty vote tables. -/
def initialENodeState (id : String) (t0 : String) (isValidator : Bool) : ENodeState :=
  { ID := id, IsValidator := isValidator, chain := [genesisBlock t0],
    pool := [], prePrepareReceived := [], prepareVotes := [], commitVotes := [] }

/-- The handler `handlePrePrepare`: non-validators return at once; a block
failing `VerifyBlock` is dropped silently; otherwise the message is cached
and a `Prepare` is broadcast to the committee (returned as the second
component; `nowStr` is the send timestamp). -/
def handlePrePrepare (shaHex : String → String)
    (headerHash : Int → String → String → String → String)
    (nowStr : String) (msg : ConsensusMsg) (s : ENodeState) :
    ENodeState × Option ConsensusMsg :=
  if !s.IsValidator then (s, none)
  else if !(verifyBlock shaHex headerHash s.chain msg.Block) then (s, none)
  else
    ({ s with prePrepareReceived := setEntry s.prePrepareReceived msg.BlockHash msg },
     some { MType := .prepare, BlockHash := msg.BlockHash, Block := msg.Block,
            From := s.ID, TimestampStr := nowStr })

/-- The handler `handlePrepare`: non-validators return at once; otherwise the
vote is recorded and, once at least `f+1` distinct endorsers are tallied, a
`Commit` is broadcast to the committee.  `N` is the committee size
(`ValidatorGroup.GetSize()`). -/
def handlePrepare (N : ℕ) (nowStr : String) (msg : ConsensusMsg) (s : ENodeState) :
    ENodeState × Option ConsensusMsg :=
  if !s.IsValidator then (s, none)
  else
    let votes := addVote s.prepareVotes msg.BlockHash msg.From
    if (lookupVotes votes msg.BlockHash).length ≥ byzF N + 1 then
      ({ s with prepareVotes := votes },
       some { MType := .commit, BlockHash := msg.BlockHash, Block := msg.Block,
              From := s.ID, TimestampStr := nowStr })
    else ({ s with prepareVotes := votes }, none)

/-- The handler `handleCommit`: every node (validator or not) tallies the
vote and, once at least `2f+1` distinct committers are tallied, appends
`msg.Block` to its chain *unconditionally* and clears the tables for that
hash. -/
def handleCommit (N : ℕ) (msg : ConsensusMsg) (s : ENodeState) : ENodeState :=
  let votes := addVote s.commitVotes msg.BlockHash msg.From
  if (lookupVotes votes msg.BlockHash).length ≥ 2 * byzF N + 1 then
    { s with
      chain := s.chain ++ [msg.Block],
      commitVotes := deleteEntry votes msg.BlockHash,
      prepareVotes := deleteEntry s.prepareVotes msg.BlockHash,
      prePrepareReceived := deleteEntry s.prePrepareReceived msg.BlockHash }
  else { s with commitVotes := votes }

/-- The method `ProposeEmergencyBlock`: only a validator with a non-empty
pool proposes; it drains the top-`BlockSize` transactions, builds the block
on its own tip, broadcasts a `PrePrepare` (second component) and handles
that message itself.  The `Prepare` its own handler would broadcast is
outbound only and does not affect the local state beyond
`handlePrePrepare`. -/
def proposeEmergencyBlock (shaHex : String → String)
    (headerHash : Int → String → String → String → String)
    (blockSize : ℕ) (validatorIDs : List String) (nowStr : String)
    (s : ENodeState) : ENodeState × Option ConsensusMsg :=
  if !s.IsValidator then (s, none)
  else if s.pool.length = 0 then (s, none)
  else
    let drained := getTopKTransactions s.pool blockSize
    let s1 := { s with pool := drained.2 }
    if drained.1 = [] then (s1, none)
    else
      match s1.chain.getLast? with
      | none => (s1, none)
      | some latest =>
        let newBlock := newEmergencyBlock shaHex headerHash (latest.Index + 1)
          nowStr latest.Hash drained.1 validatorIDs
        let msg : ConsensusMsg :=
          { MType := .prePrepare, BlockHash := newBlock.Hash, Block := newBlock,
            From := s1.ID, TimestampStr := nowStr }
        ((handlePrePrepare shaHex headerHash nowStr msg s1).1, some msg)

/-- One step of a node: receiving any `ConsensusMessage` (with arbitrary
contents — the code never authenticates senders or re-checks blocks at
`Commit`) or attempting a proposal. -/
inductive NodeStep (shaHex : String → String)
    (headerHash : Int → String → String → String → String)
    (N blockSize : ℕ) (validatorIDs : List String) :
    ENodeState → ENodeState → Prop where
  | prePrepare (nowStr : String) (msg : ConsensusMsg) (s : ENodeState) :
      NodeStep shaHex headerHash N blockSize validatorIDs s
        (handlePrePrepare shaHex headerHash nowStr msg s).1
  | prepare (nowStr : String) (msg : ConsensusMsg) (s : ENodeState) :
      NodeStep shaHex headerHash N blockSize validatorIDs s
        (handlePrepare N nowStr msg s).1
  | commit (msg : ConsensusMsg) (s : ENodeState) :
      NodeStep shaHex headerHash N blockSize validatorIDs s (handleCommit N msg s)
  | propose (nowStr : String) (s : ENodeState) :
      NodeStep shaHex headerHash N blockSize validatorIDs s
        (proposeEmergencyBlock shaHex headerHash blockSize validatorIDs nowStr s).1

/-- Node states reachable from a fresh node by any sequence of steps. -/
inductive ReachableENode (shaHex : String → String)
    (headerHash : Int → String → String → String → String)
    (N blockSize : ℕ) (validatorIDs : List String)
    (id t0 : String) (isValidator : Bool) : ENodeState → Prop where
  | init : ReachableENode shaHex headerHash N blockSize validatorIDs id t0
      isValidator (initialENodeState id t0 isValidator)
  | step {s s' : ENodeState} :
      ReachableENode shaHex headerHash N blockSize validatorIDs id t0 isValidator s →
      NodeStep shaHex headerHash N blockSize validatorIDs s s' →
      ReachableENode shaHex headerHash N blockSize validatorIDs id t0 isValidator s'

/-- A block links onto the end of a chain: its index is the tip index plus
one and its prev-hash is the tip hash. -/
def linksTo (chain : List EBlock) (b : EBlock) : Prop :=
  ∃ tip, chain.getLast? = some tip ∧ b.Index = tip.Index + 1 ∧ b.PrevHash = tip.Hash

/-- The condition under which `handleCommit` appends. -/
def commitAppends (N : ℕ) (msg : ConsensusMsg) (s : ENodeState) : Prop :=
  (lookupVotes (addVote s.commitVotes msg.BlockHash msg.From) msg.BlockHash).length
    ≥ 2 * byzF N + 1

/-- Steps restricted so that a commit that reaches its threshold only appends
a block that links onto the node's current tip — the discipline the protocol
provides when every committed block previously passed `VerifyBlock` against
the same tip at the Announce phase. -/
inductive LinkedNodeStep (shaHex : String → String)
    (headerHash : Int → String → String → String → String)
    (N blockSize : ℕ) (validatorIDs : List String) :
    ENodeState → ENodeState → Prop where
  | prePrepare (nowStr : String) (msg : ConsensusMsg) (s : ENodeState) :
      LinkedNodeStep shaHex headerHash N blockSize validatorIDs s
        (handlePrePrepare shaHex headerHash nowStr msg s).1
  | prepare (nowStr : String) (msg : ConsensusMsg) (s : ENodeState) :
      LinkedNodeStep shaHex headerHash N blockSize validatorIDs s
        (handlePrepare N nowStr msg s).1
  | commit (msg : ConsensusMsg) (s : ENodeState)
      (hlink : commitAppends N msg s → linksTo s.chain msg.Block) :
      LinkedNodeStep shaHex headerHash N blockSize validatorIDs s (handleCommit N msg s)
  | propose (nowStr : String) (s : ENodeState) :
      LinkedNodeStep shaHex headerHash N blockSize validatorIDs s
        (proposeEmergencyBlock shaHex headerHash blockSize validatorIDs nowStr s).1

/-- Node states reachable when committed blocks always link onto the tip. -/
inductive LinkedReachableENode (shaHex : String → String)
    (headerHash : Int → String → String → String → String)
    (N blockSize : ℕ) (validatorIDs : List String)
    (id t0 : String) (isValidator : Bool) : ENodeState → Prop where
  | init : LinkedReachableENode shaHex headerHash N blockSize validatorIDs id t0
      isValidator (initialENodeState id t0 isValidator)
  | step {s s' : ENodeState} :
      LinkedReachableENode shaHex headerHash N blockSize validatorIDs id t0 isValidator s →
      LinkedNodeStep shaHex headerHash N blockSize validatorIDs s s' →
      LinkedReachableENode shaHex headerHash N blockSize validatorIDs id t0 isValidator s'

/-- The chain-link invariant of spec P6: consecutive blocks are hash-linked
with consecutive indices. -/
def chainLinked (chain : List EBlock) : Prop :=
  chain.Chain' (fun a b => b.PrevHash = a.Hash ∧ b.Index = a.Index + 1)

/-- Concrete test vector: a block that does not link onto the genesis tip
(index 5, foreign prev-hash). -/
def junkBlock : EBlock :=
  { Index := 5, TimestampStr := "T", PrevHash := "xyz", Hash := "J",
    MerkleRoot := "", Signature := "", ValidatorIDs := [],
    Transactions := [], TotalUrgency := 0 }

/-- Concrete test vector: a `Commit` message for `junkBlock`. -/
def junkCommitMsg (sender : String) : ConsensusMsg :=
  { MType := .commit, BlockHash := "J", Block := junkBlock,
    From := sender, TimestampStr := "T1" }

/-- Concrete test vector: a fresh validator node after receiving `Commit`
votes for `junkBlock` from three distinct senders, with committee size
`N = 4` (so `f = 1` and the `2f+1 = 3` threshold is reached and the junk
block is appended). -/
def junkCommittedState : ENodeState :=
  handleCommit 4 (junkCommitMsg "v3")
    (handleCommit 4 (junkCommitMsg "v2")
      (handleCommit 4 (junkCommitMsg "v1") (initialENodeState "n1" "T" true)))

/-! ## Validator committee (src/emergency/validator.go)

`SelectValidators` computes a reputation for every candidate whose
`ReputationManager` is present, sorts descending with
`sort.Slice(nodeReputation, func(i, j int) bool { return rep[i] > rep[j] })`,
keeps the first `GroupSize` entries, stamps `CreatedAt` and resets
`CurrentRound` to 0.  The call `rm.ComputeReputation(nodeID, now)` together
with the nil check enters as an oracle `repuOf : String → Option ℝ`. -/

/-- The structure `Validator`: node id and reputation snapshot. -/
structure GoValidator where
  ID : String
  Reputation : ℝ

/-- The structure `ValidatorGroup`.  `CreatedAt` is the stamped time's
serialisation; the Go `int` counters are never negative in any reachable
use, `CurrentRound` is kept as `Int` to mirror the arithmetic. -/
structure ValidatorGroup where
  Validators : List GoValidator
  GroupSize : ℕ
  ActivePeriod : Int
  CurrentRound : Int
  CreatedAt : String

/-- Descending-reputation order: the sortedness `sort.Slice` guarantees
under the comparator `rep[i] > rep[j]`. -/
def repGE (a b : GoValidator) : Prop := b.Reputation ≤ a.Reputation

/-- Insert a validator behind every entry with reputation `≥` its own —
one step of an insertion sort under the `rep[i] > rep[j]` comparator. -/
noncomputable def insertDescByRep (v : GoValidator) : List GoValidator → List GoValidator
  | [] => [v]
  | w :: ws =>
    if v.Reputation > w.Reputation then v :: w :: ws else w :: insertDescByRep v ws

/-- The insertion sort under the `rep[i] > rep[j]` comparator.  This is the
code path `sort.Slice` takes for slices shorter than 12 elements (pdqsort's
short-slice fallback), where it is stable; on longer slices pdqsort may
reorder equal-reputation entries, so nothing below assumes this function at
larger sizes — the general theorems are stated for any implementation
satisfying `SortSliceSpec`. -/
noncomputable def insertionSortByRepDesc (l : List GoValidator) : List GoValidator :=
  l.foldl (fun acc v => insertDescByRep v acc) []

/-- The documented contract of
`sort.Slice(nodeReputation, func(i, j int) bool { return rep[i] > rep[j] })`:
some permutation of the input that is non-increasing in reputation.
`sort.Slice` is *not* stable, so the order of equal-reputation entries is
implementation-defined and this contract is all the callers may rely on. -/
def SortSliceSpec (sortImpl : List GoValidator → List GoValidator) : Prop :=
  ∀ l : List GoValidator, (sortImpl l).Perm l ∧ (sortImpl l).Sorted repGE

/-- The candidate list built by `SelectValidators`: one `Validator` per node
id whose manager is present, carrying `ComputeReputation(nodeID, now)`. -/
noncomputable def candidatesOf (nodeIDs : List String) (repuOf : String → Option ℝ) :
    List GoValidator :=
  nodeIDs.filterMap (fun nid => (repuOf nid).map (fun r => GoValidator.mk nid r))

/-- The method `SelectValidators`, parametrised by the reordering that its
`sort.Slice` call produces (any `SortSliceSpec` implementation; on fewer
than 12 candidates Go's sort is exactly `insertionSortByRepDesc`). -/
noncomputable def selectValidators (sortImpl : List GoValidator → List GoValidator)
    (vg : ValidatorGroup) (nodeIDs : List String)
    (repuOf : String → Option ℝ) (nowStr : String) : ValidatorGroup :=
  let sorted := sortImpl (candidatesOf nodeIDs repuOf)
  { vg with
    Validators := if sorted.length < vg.GroupSize then sorted
                  else sorted.take vg.GroupSize,
    CreatedAt := nowStr,
    CurrentRound := 0 }

/-- The method `IsActive`: `CurrentRound < ActivePeriod`. -/
def vgIsActive (vg : ValidatorGroup) : Bool :=
  decide (vg.CurrentRound < vg.ActivePeriod)

/-- The method `IncrementRound`. -/
def incrementRound (vg : ValidatorGroup) : ValidatorGroup :=
  { vg with CurrentRound := vg.CurrentRound + 1 }

/-- The method `NeedRefresh`: `!IsActive() || len(Validators) == 0`. -/
def needRefresh (vg : ValidatorGroup) : Bool :=
  !(vgIsActive vg) || vg.Validators.length == 0

/-! ## Reputation engine (src/reputation/reputation.go)

The interaction log is a list in append order; the Go maps
(`aggregateByPair`, the direct-opinion map, the indirect map) are recovered
from it by filtering, with first-occurrence key order.  Every numeric fold
over a Go map is a sum, which is iteration-order independent over `ℝ`.
`math.Exp` / `math.Pow` become `Real.exp` / `Real.rpow`.  Note: Go float
division by zero yields `NaN`/`Inf`, while `ℝ` division by zero yields 0;
the only reachable zero denominator is the fusion `k` (claim C2), and the
theorems about it state `k = 0` rather than relying on the quotient's
value. -/

/-- The structure `Vector` (a trajectory sample). -/
structure RVector where
  Speed : ℝ
  Direction : ℝ
  Acceleration : ℝ

/-- The type `TransactionType` (`NormalTransaction` / `EmergencyTransaction`). -/
inductive RTxType where
  | normalTx
  | emergencyTx
deriving DecidableEq, Inhabited

/-- The structure `Interaction`.  `Timestamp` is in seconds. -/
structure RInteraction where
  From : String
  To : String
  PosEvents : ℕ
  NegEvents : ℕ
  Timestamp : ℝ
  TrajUser : List RVector
  TrajProvider : List RVector
  TxType : RTxType
  UrgencyDegree : ℝ

instance : Inhabited RInteraction :=
  ⟨⟨"", "", 0, 0, 0, [], [], .normalTx, 0⟩⟩

/-- The structure `config.Config`. -/
structure RConfig where
  Rho1 : ℝ
  Rho2 : ℝ
  Rho3 : ℝ
  Eta : ℝ
  Epsilon : ℝ
  Tau1 : ℝ
  Tau2 : ℝ
  Tau3 : ℝ
  Mu : ℝ
  Gamma : ℝ

/-- The structure `SubjectiveOpinion` (belief, disbelief, uncertainty). -/
structure SubjectiveOpinion where
  T : ℝ
  D : ℝ
  I : ℝ

/-- The structure `DirectOpinion` (opinion plus direct weight δ). -/
structure DirectOpinion where
  Opinion : SubjectiveOpinion
  Weight : ℝ

/-- The constant `InitialReputation = 0.5`. -/
noncomputable def InitialReputation : ℝ := 1 / 2

/-- The function `CalculateTransactionWeight`: 1.0 for normal transactions,
`min(8.0, 3.0 * (1 + 0.8 * urgency))` for emergency ones (the Go code writes
the cap as an if). -/
noncomputable def calculateTransactionWeight (txType : RTxType) (urgencyDegree : ℝ) : ℝ :=
  match txType with
  | .normalTx => 1
  | .emergencyTx =>
    let w := 3 * (1 + (8 / 10) * urgencyDegree)
    if w > 8 then 8 else w

/-- The function `cosineSimilarity`: 0 when either vector has zero norm,
else the normalised inner product.  (The Go loop indexes `b` by `a`'s
indices; all call sites pass equal lengths, matched here by `zip`.) -/
noncomputable def cosineSimilarity (a b : List ℝ) : ℝ :=
  let num := ((a.zip b).map (fun p => p.1 * p.2)).sum
  let sa := (a.map (fun x => x * x)).sum
  let sb := (b.map (fun x => x * x)).sum
  if sa = 0 ∨ sb = 0 then 0 else num / (Real.sqrt sa * Real.sqrt sb)

/-- The method `computeTrajectorySimilarity`: channelwise cosines over the
common prefix, blended with `Tau1, Tau2, Tau3`. -/
noncomputable def computeTrajectorySimilarity (cfg : RConfig)
    (user prov : List RVector) : ℝ :=
  let n := min user.length prov.length
  let u := user.take n
  let v := prov.take n
  cfg.Tau1 * cosineSimilarity (u.map RVector.Speed) (v.map RVector.Speed) +
  cfg.Tau2 * cosineSimilarity (u.map RVector.Direction) (v.map RVector.Direction) +
  cfg.Tau3 * cosineSimilarity (u.map RVector.Acceleration) (v.map RVector.Acceleration)

/-- The interactions aimed at `subj` (the rows that populate `agg[subj]`). -/
def inboundOf (log : List RInteraction) (subj : String) : List RInteraction :=
  log.filter (fun i => i.To == subj)

/-- The evaluator keys of `agg[subj]`, in first-appearance order. -/
def evaluatorsOf (log : List RInteraction) (subj : String) : List String :=
  ((inboundOf log subj).map RInteraction.From).dedup

/-- The log rows for one `(subj, from)` pair. -/
def pairEntries (log : List RInteraction) (subj frm : String) : List RInteraction :=
  log.filter (fun i => i.To == subj && i.From == frm)

/-- One `aggregateByPair` merge step: counts accumulate; the trajectories
(and timestamp) of the strictly later interaction win. -/
noncomputable def mergePair (acc i : RInteraction) : RInteraction :=
  let acc1 := { acc with
    PosEvents := acc.PosEvents + i.PosEvents,
    NegEvents := acc.NegEvents + i.NegEvents }
  if acc.Timestamp < i.Timestamp then
    { acc1 with
      Timestamp := i.Timestamp,
      TrajUser := i.TrajUser,
      TrajProvider := i.TrajProvider }
  else acc1

/-- The entry `agg[subj][frm]` of `aggregateByPair` (log-order fold; the
default value is never read, since the entry exists only for
`frm ∈ evaluatorsOf log subj`). -/
noncomputable def aggInteraction (log : List RInteraction) (subj frm : String) : RInteraction :=
  match pairEntries log subj frm with
  | [] => default
  | e :: rest => rest.foldl mergePair e

/-- The per-pair event total `pos + neg` as a float. -/
noncomputable def eventCount (log : List RInteraction) (subj frm : String) : ℕ :=
  (aggInteraction log subj frm).PosEvents + (aggInteraction log subj frm).NegEvents

/-- The mean event count `avgCnt` over the subject's evaluators (1.0 when
there are none). -/
noncomputable def avgCnt (log : List RInteraction) (subj : String) : ℝ :=
  let evals := evaluatorsOf log subj
  if 0 < evals.length then
    (evals.map (fun e => (eventCount log subj e : ℝ))).sum / evals.length
  else 1

/-- The time factor `TIM`: `η` when `Δ = now - timestamp ≤ 0`, else
`η · Δ^(-ε)`. -/
noncomputable def timFactor (cfg : RConfig) (now ts : ℝ) : ℝ :=
  let delta := now - ts
  if delta ≤ 0 then cfg.Eta else cfg.Eta * delta ^ (-cfg.Epsilon)

/-- The direct weight `δ = (ρ1·Fi + ρ2·TIM + ρ3·sim) · txWeight` of
evaluator `e` for subject `subj`. -/
noncomputable def weightOf (cfg : RConfig) (log : List RInteraction)
    (subj : String) (now : ℝ) (e : String) : ℝ :=
  let inter := aggInteraction log subj e
  let Fi := (eventCount log subj e : ℝ) / avgCnt log subj
  let TIM := timFactor cfg now inter.Timestamp
  let sim := computeTrajectorySimilarity cfg inter.TrajUser inter.TrajProvider
  (cfg.Rho1 * Fi + cfg.Rho2 * TIM + cfg.Rho3 * sim) *
    calculateTransactionWeight inter.TxType inter.UrgencyDegree

/-- The uncertainty `Ii = 2 / (2 + pos + neg)`. -/
noncomputable def uncOf (log : List RInteraction) (subj : String) (e : String) : ℝ :=
  2 / (2 + (eventCount log subj e : ℝ))

/-- The error factor `θ = μ / (1 + exp(Σ δ·neg / Σ δ))`, or 0 when `Σ δ = 0`. -/
noncomputable def thetaOf (cfg : RConfig) (log : List RInteraction)
    (subj : String) (now : ℝ) : ℝ :=
  let evals := evaluatorsOf log subj
  let errNum := (evals.map (fun e =>
    weightOf cfg log subj now e * ((aggInteraction log subj e).NegEvents : ℝ))).sum
  let errDen := (evals.map (fun e => weightOf cfg log subj now e)).sum
  if errDen ≠ 0 then cfg.Mu / (1 + Real.exp (errNum / errDen)) else 0

/-- The effective evidence `α + β` with `α = (1-θ)·pos`, `β = θ·neg`. -/
noncomputable def effectiveEvidence (cfg : RConfig) (log : List RInteraction)
    (subj : String) (now : ℝ) (e : String) : ℝ :=
  let inter := aggInteraction log subj e
  let theta := thetaOf cfg log subj now
  (1 - theta) * (inter.PosEvents : ℝ) + theta * (inter.NegEvents : ℝ)

/-- The filled direct opinion of evaluator `e` about subject `subj`:
`T = (1-I)·α/(α+β)`, `D = (1-I)·β/(α+β)` when `α+β > 0`, else `T = D = 0`. -/
noncomputable def directOpinionAt (cfg : RConfig) (log : List RInteraction)
    (subj : String) (now : ℝ) (e : String) : DirectOpinion :=
  let inter := aggInteraction log subj e
  let Ii := uncOf log subj e
  let theta := thetaOf cfg log subj now
  let alpha := (1 - theta) * (inter.PosEvents : ℝ)
  let beta := theta * (inter.NegEvents : ℝ)
  let sumEvt := alpha + beta
  if sumEvt > 0 then
    ⟨⟨(1 - Ii) * alpha / sumEvt, (1 - Ii) * beta / sumEvt, Ii⟩,
      weightOf cfg log subj now e⟩
  else ⟨⟨0, 0, Ii⟩, weightOf cfg log subj now e⟩

/-- The direct-opinion row `direct[subj]`, in evaluator-key order. -/
noncomputable def directOpinionsOf (cfg : RConfig) (log : List RInteraction)
    (subj : String) (now : ℝ) : List DirectOpinion :=
  (evaluatorsOf log subj).map (directOpinionAt cfg log subj now)

/-- The subject keys of the direct map (`for target := range direct`). -/
def subjectsOf (log : List RInteraction) : List String :=
  (log.map RInteraction.To).dedup

/-- The `dfs` of `computeIndirectOpinions` (`hopCount = 2`): a partial path
is abandoned once it has more than 2 edges, recorded once it ends at the
target with at least one edge, and otherwise extended by every evaluator of
its last node that it does not already visit.  `fuel` only bounds the
recursion; the bound check cuts every branch before fuel 4 runs out. -/
def dfsPaths (log : List RInteraction) (target : String) :
    ℕ → List String → List (List String)
  | 0, _ => []
  | fuel + 1, path =>
    let last := path.getLast?.getD ""
    if path.length - 1 > 2 then []
    else if last = target ∧ path.length > 1 then [path]
    else
      ((evaluatorsOf log last).filter (fun nxt => !(path.contains nxt))).flatMap
        (fun nxt => dfsPaths log target fuel (path ++ [nxt]))

/-- All dfs paths from `source` up to `target`. -/
def pathsFromTo (log : List RInteraction) (source target : String) :
    List (List String) :=
  dfsPaths log target 4 [source]

/-- The source keys of `indirect[target]`: subjects other than the target
with at least one path (an entry is created exactly when a path is found). -/
def indirectSources (log : List RInteraction) (target : String) : List String :=
  (subjectsOf log).filter
    (fun s => !(s == target) && !(pathsFromTo log s target).isEmpty)

/-- The edge lookup `direct[toNode][from]`, with the Go zero value for a
missing entry. -/
noncomputable def edgeOpinion (cfg : RConfig) (log : List RInteraction)
    (now : ℝ) (frm toNode : String) : DirectOpinion :=
  if frm ∈ evaluatorsOf log toNode then directOpinionAt cfg log toNode now frm
  else ⟨⟨0, 0, 0⟩, 0⟩

/-- The discount fold along one path: starting from `(T,D,I,w) = (1,0,0,1)`,
each edge `(from, toNode)` applies `T' = T·t`, `D' = T·d`, `I' = D + I + T·i`
and multiplies the weight by δ. -/
noncomputable def discountPath (cfg : RConfig) (log : List RInteraction)
    (now : ℝ) (path : List String) : ℝ × ℝ × ℝ × ℝ :=
  (path.zip path.tail).foldl
    (fun acc pq =>
      let d := edgeOpinion cfg log now pq.1 pq.2
      (acc.1 * d.Opinion.T, acc.1 * d.Opinion.D,
       acc.2.1 + acc.2.2.1 + acc.1 * d.Opinion.I, acc.2.2.2 * d.Weight))
    (1, 0, 0, 1)

/-- The indirect opinion `indirect[target][source]`: the weight-accumulated
sum over all paths, normalised by the total path weight when positive. -/
noncomputable def indirectOpinionOf (cfg : RConfig) (log : List RInteraction)
    (now : ℝ) (target source : String) : SubjectiveOpinion :=
  let ps := pathsFromTo log source target
  let acc := ps.foldl
    (fun (a : ℝ × ℝ × ℝ) p =>
      let r := discountPath cfg log now p
      (a.1 + r.1 * r.2.2.2, a.2.1 + r.2.1 * r.2.2.2, a.2.2 + r.2.2.1 * r.2.2.2))
    (0, 0, 0)
  let sumW := (ps.map (fun p => (discountPath cfg log now p).2.2.2)).sum
  if sumW > 0 then ⟨acc.1 / sumW, acc.2.1 / sumW, acc.2.2 / sumW⟩
  else ⟨acc.1, acc.2.1, acc.2.2⟩

/-- The row `indirect[target]`, in source-key order. -/
noncomputable def indirectOpinionsOf (cfg : RConfig) (log : List RInteraction)
    (now : ℝ) (target : String) : List SubjectiveOpinion :=
  (indirectSources log target).map (indirectOpinionOf cfg log now target)

/-- The δ-weighted direct aggregate of `fuseOpinions` (zeros when the weight
sum is not positive). -/
noncomputable def fuseDirectAggregate (dir : List DirectOpinion) : SubjectiveOpinion :=
  let sumW := (dir.map DirectOpinion.Weight).sum
  if sumW > 0 then
    ⟨(dir.map (fun d => d.Opinion.T * d.Weight)).sum / sumW,
     (dir.map (fun d => d.Opinion.D * d.Weight)).sum / sumW,
     (dir.map (fun d => d.Opinion.I * d.Weight)).sum / sumW⟩
  else ⟨0, 0, 0⟩

/-- The plain mean of the indirect opinions (the Go code guards the division
with `len(ind) > 0`). -/
noncomputable def indirectAggregate (ind : List SubjectiveOpinion) : SubjectiveOpinion :=
  if 0 < ind.length then
    ⟨(ind.map SubjectiveOpinion.T).sum / ind.length,
     (ind.map SubjectiveOpinion.D).sum / ind.length,
     (ind.map SubjectiveOpinion.I).sum / ind.length⟩
  else ⟨0, 0, 0⟩

/-- The consensus denominator
`k = I_dir·I_ind + T_ind·I_dir + D_ind·I_dir` of `fuseOpinions`. -/
noncomputable def fuseK (dir : List DirectOpinion) (ind : List SubjectiveOpinion) : ℝ :=
  let A := fuseDirectAggregate dir
  let B := indirectAggregate ind
  A.I * B.I + B.T * A.I + B.D * A.I

/-- The method `fuseOpinions`: the direct aggregate verbatim when there are
no indirect opinions, else the consensus combination divided by `k` — with
no special case for `k = 0` (where the Go floats produce NaN; over `ℝ` the
quotient is the junk value 0, and the theorems about this case only state
`k = 0`). -/
noncomputable def fuseOpinions (dir : List DirectOpinion)
    (ind : List SubjectiveOpinion) : SubjectiveOpinion :=
  let A := fuseDirectAggregate dir
  if ind.length = 0 then A
  else
    let B := indirectAggregate ind
    let k := fuseK dir ind
    ⟨(A.T * B.I + B.T * A.I) / k, (A.D * B.I + B.D * A.I) / k, (A.I * B.I) / k⟩

/-- The method `ComputeReputation`: 0.5 when the target has no inbound
interactions, else `T + γ·I` of the fused opinion. -/
noncomputable def computeReputation (cfg : RConfig) (log : List RInteraction)
    (target : String) (now : ℝ) : ℝ :=
  if (inboundOf log target).isEmpty then InitialReputation
  else
    let dir := directOpinionsOf cfg log target now
    let ind := indirectOpinionsOf cfg log now target
    let fused := fuseOpinions dir ind
    fused.T + cfg.Gamma * fused.I

/-- Concrete test vector: a single positive interaction A→B at time 0 with
empty trajectories. -/
noncomputable def logPos1 : List RInteraction :=
  [⟨"A", "B", 1, 0, 0, [], [], .normalTx, 0⟩]

/-- Concrete test vector: one interaction A→B with one positive and one
negative event. -/
noncomputable def logPosNeg : List RInteraction :=
  [⟨"A", "B", 1, 1, 0, [], [], .normalTx, 0⟩]

/-- Concrete test vector: one purely negative interaction A→B (pos 0, neg 3). -/
noncomputable def logNeg3 : List RInteraction :=
  [⟨"A", "B", 0, 3, 0, [], [], .normalTx, 0⟩]

/-- Concrete test vector: mutual positive interactions A→B and B→A. -/
noncomputable def logMutual : List RInteraction :=
  [⟨"A", "B", 1, 0, 0, [], [], .normalTx, 0⟩,
   ⟨"B", "A", 1, 0, 0, [], [], .normalTx, 0⟩]

/-- Concrete test config: `ρ = (1,0,0)`, `η = ε = 1`, `τ = (1,0,0)`,
`μ = 1`, `γ = 1/2` (satisfies every convention of spec §6). -/
noncomputable def cfgBase : RConfig := ⟨1, 0, 0, 1, 1, 1, 0, 0, 1, 1 / 2⟩

/-- Concrete test config: like `cfgBase` but `μ = 10`, `γ = 0` (all finite,
`ρ` and `τ` sum to 1 — the only conventions §6 states). -/
noncomputable def cfgMu10 : RConfig := ⟨1, 0, 0, 1, 1, 1, 0, 0, 10, 0⟩

/-- Concrete test config: all weight on the trajectory-similarity term,
`ρ = (0,0,1)`, so empty trajectories give direct weight 0. -/
noncomputable def cfgRho3 : RConfig := ⟨0, 0, 1, 1, 1, 1, 0, 0, 1, 1 / 2⟩

/-! ## Theorems

All definitions of the embedding are above; everything below proves or
refutes properties of those definitions. -/

theorem calculateE_pos (tp ta td : ℝ) : 0 < calculateE tp ta td := by
  unfold calculateE
  split
  · exact Real.exp_pos _
  · norm_num

theorem calculateUrgencyDegree_pos (tp ta td : ℝ) (theta : ℕ) (omega : ℝ) :
    0 < calculateUrgencyDegree tp ta td theta omega :=
  mul_pos (calculateE_pos tp ta td) (Real.exp_pos _)

/-- C7, counterexample.  The claim asserts that, with `tp, ta, td` fixed,
increasing the prior count `θ` *strictly increases* the urgency.  The weight
`ω` is a free configuration knob (`UrgencyConfig.Omega`) which the repository
never constrains to be positive; at `ω = 0` the urgency is constant in `θ`:
with `tp = 0, ta = 1, td = 2`, the urgency for `θ = 0` and `θ = 1` coincide. -/
theorem urgency_not_strictMono_in_theta :
    calculateUrgencyDegree 0 1 2 0 0 = calculateUrgencyDegree 0 1 2 1 0 ∧ (0 : ℕ) < 1 := by
  constructor
  · unfold calculateUrgencyDegree
    norm_num
  · norm_num

/-- C7, amended.  For the urgency scorer with fixed `tp, ta, td` (hence fixed
`E`) and a *positive* prior-count weight `ω`, increasing the prior count `θ`
strictly increases the urgency; with `ΔTR = ta - tp` fixed and positive,
increasing the expected delay `td - ta` strictly decreases the urgency; the
result is `E · exp(ω·θ)` with `E = exp(-Tc/ΔTR)` when `ΔTR > 0` and `E = 0.1`
otherwise, and it is positive (hence non-negative). -/
theorem urgency_monotonicity (tp ta td td' : ℝ) (theta theta' : ℕ) (omega : ℝ)
    (homega : 0 < omega) (htheta : theta < theta')
    (hdtr : 0 < ta - tp) (htd : td < td') :
    calculateUrgencyDegree tp ta td theta omega < calculateUrgencyDegree tp ta td theta' omega ∧
    calculateUrgencyDegree tp ta td' theta omega < calculateUrgencyDegree tp ta td theta omega ∧
    calculateUrgencyDegree tp ta td theta omega
      = Real.exp (-(td - ta) / (ta - tp)) * Real.exp (omega * theta) ∧
    0 ≤ calculateUrgencyDegree tp ta td theta omega := by
  have hE : calculateE tp ta td = Real.exp (-(td - ta) / (ta - tp)) := by
    unfold calculateE
    rw [if_pos hdtr]
  refine ⟨?_, ?_, ?_, le_of_lt (calculateUrgencyDegree_pos _ _ _ _ _)⟩
  · unfold calculateUrgencyDegree
    apply mul_lt_mul_of_pos_left _ (calculateE_pos tp ta td)
    apply Real.exp_lt_exp.mpr
    have : (theta : ℝ) < (theta' : ℝ) := by exact_mod_cast htheta
    exact (mul_lt_mul_left homega).mpr this
  · unfold calculateUrgencyDegree calculateE
    rw [if_pos hdtr, if_pos hdtr]
    apply mul_lt_mul_of_pos_right _ (Real.exp_pos _)
    apply Real.exp_lt_exp.mpr
    apply div_lt_div_of_pos_right _ hdtr
    linarith
  · unfold calculateUrgencyDegree
    rw [hE]

/-- Witness for `urgency_monotonicity` at `tp = 0, ta = 1, td = 2, td' = 3`,
`θ = 0 < θ' = 1`, `ω = 1`. -/
theorem urgency_monotonicity_witness :
    calculateUrgencyDegree 0 1 2 0 1 < calculateUrgencyDegree 0 1 2 1 1 ∧
    calculateUrgencyDegree 0 1 3 0 1 < calculateUrgencyDegree 0 1 2 0 1 := by
  have h := urgency_monotonicity 0 1 2 3 0 1 1 (by norm_num) (by norm_num)
    (by norm_num) (by norm_num)
  exact ⟨h.1, h.2.1⟩


theorem bubblePass_perm (b : ℕ) : ∀ l : List GoTx, (bubblePass b l).Perm l := by
  induction b with
  | zero =>
    intro l
    match l with
    | [] => simp [bubblePass]
    | [x] => simp [bubblePass]
    | x :: y :: r => simp [bubblePass]
  | succ b ih =>
    intro l
    match l with
    | [] => simp [bubblePass]
    | [x] => simp [bubblePass]
    | x :: y :: r =>
      rw [bubblePass]
      split
      · exact ((ih (x :: r)).cons y).trans (List.Perm.swap x y r)
      · exact (ih (y :: r)).cons x

theorem bubbleLoop_perm (b : ℕ) : ∀ l : List GoTx, (bubbleLoop b l).Perm l := by
  induction b with
  | zero => intro l; rw [bubbleLoop]
  | succ b ih =>
    intro l
    rw [bubbleLoop]
    exact (ih _).trans (bubblePass_perm _ l)

theorem bubbleSortGo_perm (l : List GoTx) : (bubbleSortGo l).Perm l :=
  bubbleLoop_perm _ l

theorem bubbleSortGo_length (l : List GoTx) : (bubbleSortGo l).length = l.length :=
  (bubbleSortGo_perm l).length_eq

theorem fullPass_perm : ∀ l : List GoTx, (fullPass l).Perm l := by
  intro l
  induction l using fullPass.induct with
  | case1 => simp [fullPass]
  | case2 x => simp [fullPass]
  | case3 x y r h ih =>
    rw [fullPass, if_pos h]
    exact (ih.cons y).trans (List.Perm.swap x y r)
  | case4 x y r h ih =>
    rw [fullPass, if_neg h]
    exact ih.cons x

theorem bubblePass_eq_fullPass (b : ℕ) :
    ∀ l : List GoTx, bubblePass b l = fullPass (l.take (b + 1)) ++ l.drop (b + 1) := by
  induction b with
  | zero =>
    intro l
    match l with
    | [] => simp [bubblePass, fullPass]
    | [x] => simp [bubblePass, fullPass]
    | x :: y :: r => simp [bubblePass, fullPass]
  | succ b ih =>
    intro l
    match l with
    | [] => simp [bubblePass, fullPass]
    | [x] => simp [bubblePass, fullPass]
    | x :: y :: r =>
      rw [bubblePass]
      have htake : (x :: y :: r).take (b + 2) = x :: y :: r.take b := by simp
      have hdrop : (x :: y :: r).drop (b + 2) = r.drop b := by simp
      rw [htake, hdrop, fullPass]
      split
      · rw [ih (x :: r)]
        simp
      · rw [ih (y :: r)]
        simp

/-- A full pass deposits a minimum of the list at its last position. -/
theorem fullPass_last (x : GoTx) :
    ∀ r : List GoTx, ∃ ys m, fullPass (x :: r) = ys ++ [m] ∧
      ∀ a ∈ ys, m.UrgencyDegree ≤ a.UrgencyDegree := by
  intro r
  induction r generalizing x with
  | nil => exact ⟨[], x, by simp [fullPass], by simp⟩
  | cons y r ih =>
    by_cases h : x.UrgencyDegree < y.UrgencyDegree
    · obtain ⟨ys, m, heq, hmin⟩ := ih x
      refine ⟨y :: ys, m, ?_, ?_⟩
      · rw [fullPass, if_pos h, heq]; simp
      · intro a ha
        rcases List.mem_cons.mp ha with rfl | ha
        · -- m ≤ x < y
          have hx : x ∈ ys ++ [m] := heq ▸ (fullPass_perm (x :: r)).symm.subset (by simp)
          rcases List.mem_append.mp hx with hx | hx
          · exact le_trans (le_trans (hmin x hx) (le_of_lt h)) (le_refl _)
          · have : x = m := by simpa using hx
            exact this ▸ le_of_lt h
        · exact hmin a ha
    · obtain ⟨ys, m, heq, hmin⟩ := ih y
      refine ⟨x :: ys, m, ?_, ?_⟩
      · rw [fullPass, if_neg h, heq]; simp
      · intro a ha
        rcases List.mem_cons.mp ha with rfl | ha
        · -- m ≤ y ≤ x
          have hy : y ∈ ys ++ [m] := heq ▸ (fullPass_perm (y :: r)).symm.subset (by simp)
          have hyx : y.UrgencyDegree ≤ a.UrgencyDegree := le_of_not_lt h
          rcases List.mem_append.mp hy with hy | hy
          · exact le_trans (hmin y hy) hyx
          · have : y = m := by simpa using hy
            exact this ▸ hyx
        · exact hmin a ha

theorem bubbleLoop_sorted (b : ℕ) :
    ∀ l : List GoTx, b + 1 ≤ l.length → poolSortedAfter b l →
      (bubbleLoop b l).Sorted urgGE := by
  induction b with
  | zero =>
    intro l hlen hinv
    rw [bubbleLoop]
    match l, hlen with
    | x :: r, _ =>
      rw [List.sorted_cons]
      refine ⟨?_, ?_⟩
      · intro y hy
        exact hinv.2 x (by simp) y (by simpa using hy)
      · simpa using hinv.1
  | succ b ih =>
    intro l hlen hinv
    rw [bubbleLoop, bubblePass_eq_fullPass]
    have hA : (l.take (b + 1 + 1)).length = b + 1 + 1 := by
      rw [List.length_take]
      omega
    obtain ⟨a, A', hA2⟩ : ∃ a A', l.take (b + 1 + 1) = a :: A' := by
      cases hAA : l.take (b + 1 + 1) with
      | nil => rw [hAA] at hA; simp at hA
      | cons a A' => exact ⟨a, A', rfl⟩
    rw [hA2]
    obtain ⟨ys, m, heq, hmin⟩ := fullPass_last a A'
    have hysLen : ys.length = b + 1 := by
      have hpl := (fullPass_perm (a :: A')).length_eq
      rw [heq] at hpl
      rw [hA2] at hA
      simp at hpl hA
      omega
    rw [heq]
    have hfa : (ys ++ [m]) ++ l.drop (b + 1 + 1) = ys ++ m :: l.drop (b + 1 + 1) := by
      simp
    rw [hfa]
    have hmemA : ∀ z, z ∈ ys ++ [m] → z ∈ l.take (b + 1 + 1) := by
      intro z hz
      rw [hA2]
      exact (fullPass_perm (a :: A')).subset (heq ▸ hz)
    -- the elements of the old tail are dominated by every element of the take
    have hdomB : ∀ x ∈ l.take (b + 1 + 1), ∀ y ∈ l.drop (b + 1 + 1),
        y.UrgencyDegree ≤ x.UrgencyDegree := hinv.2
    apply ih (ys ++ m :: l.drop (b + 1 + 1))
    · simp [hysLen]
    · have hdrop : (ys ++ m :: l.drop (b + 1 + 1)).drop (b + 1) = m :: l.drop (b + 1 + 1) := by
        rw [← hysLen, List.drop_left]
      have htake : (ys ++ m :: l.drop (b + 1 + 1)).take (b + 1) = ys := by
        rw [← hysLen, List.take_left]
      constructor
      · rw [hdrop, List.sorted_cons]
        refine ⟨?_, hinv.1⟩
        intro y hy
        exact hdomB m (hmemA m (by simp)) y hy
      · rw [htake, hdrop]
        intro x hx y hy
        rcases List.mem_cons.mp hy with rfl | hy
        · exact hmin x hx
        · exact hdomB x (hmemA x (by simp [hx])) y hy

theorem bubbleSortGo_sorted (l : List GoTx) : (bubbleSortGo l).Sorted urgGE := by
  match l with
  | [] => simp [bubbleSortGo, bubbleLoop]
  | x :: r =>
    apply bubbleLoop_sorted
    · simp
    · constructor
      · have : ((x :: r).drop ((x :: r).length - 1 + 1)) = [] := by
          apply List.drop_eq_nil_of_le
          simp
        rw [this]
        exact List.sorted_nil
      · intro a _ y hy
        have : ((x :: r).drop ((x :: r).length - 1 + 1)) = [] := by
          apply List.drop_eq_nil_of_le
          simp
        rw [this] at hy
        simp at hy

theorem length_filter_add_length_filter_not (l : List GoTx) (p : GoTx → Bool) :
    (l.filter p).length + (l.filter (fun a => !(p a))).length = l.length := by
  induction l with
  | nil => simp
  | cons x r ih =>
    by_cases hx : p x
    · simp [List.filter_cons, hx, ← ih]
      omega
    · simp [List.filter_cons, hx, ← ih]
      omega

/-- Counting the pool entries whose ID belongs to a duplicate-free list `S` of
IDs drawn from the (duplicate-free) pool IDs. -/
theorem length_filter_mem_ids (pool : List GoTx) :
    ∀ S : List String, (pool.map GoTx.ID).Nodup → S.Nodup →
      (∀ s ∈ S, s ∈ pool.map GoTx.ID) →
      (pool.filter (fun tx => decide (tx.ID ∈ S))).length = S.length := by
  induction pool with
  | nil =>
    intro S _ _ hsub
    have : S = [] := by
      cases S with
      | nil => rfl
      | cons s S' => exact absurd (hsub s (by simp)) (by simp)
    simp [this]
  | cons x r ih =>
    intro S hpool hS hsub
    have hxr : x.ID ∉ r.map GoTx.ID := by
      have := hpool
      simp only [List.map_cons, List.nodup_cons] at this
      exact this.1
    have hrnodup : (r.map GoTx.ID).Nodup := by
      have := hpool
      simp only [List.map_cons, List.nodup_cons] at this
      exact this.2
    by_cases hx : x.ID ∈ S
    · have hSlen : 1 ≤ S.length := List.length_pos.mpr (List.ne_nil_of_mem hx)
      have hfilter_eq : r.filter (fun tx => decide (tx.ID ∈ S))
          = r.filter (fun tx => decide (tx.ID ∈ S.erase x.ID)) := by
        apply List.filter_congr
        intro tx htx
        have hne : tx.ID ≠ x.ID := by
          intro heq
          exact hxr (heq ▸ List.mem_map_of_mem GoTx.ID htx)
        simp [List.mem_erase_of_ne hne]
      have hr := ih (S.erase x.ID) hrnodup (hS.erase x.ID) ?_
      · rw [List.filter_cons, if_pos (by simpa using hx), hfilter_eq]
        simp only [List.length_cons]
        rw [hr, List.length_erase_of_mem hx]
        omega
      · intro s hs
        have hsS : s ∈ S := List.mem_of_mem_erase hs
        have hsx : s ≠ x.ID := (List.Nodup.mem_erase_iff hS).mp hs |>.1
        have := hsub s hsS
        simp only [List.map_cons, List.mem_cons] at this
        exact this.resolve_left hsx
    · have hr := ih S hrnodup hS ?_
      · rw [List.filter_cons, if_neg (by simpa using hx)]
        exact hr
      · intro s hs
        have := hsub s hs
        simp only [List.map_cons, List.mem_cons] at this
        rcases this with h | h
        · exact absurd (h ▸ hs) hx
        · exact h

theorem getTopK_fst_eq (pool : List GoTx) (k : ℕ) (h : pool ≠ []) :
    (getTopKTransactions pool k).1 = (bubbleSortGo pool).take k := by
  rw [getTopKTransactions, if_neg h]

theorem getTopK_snd_eq (pool : List GoTx) (k : ℕ) :
    (getTopKTransactions pool k).2
      = removeTransactions pool (getTopKTransactions pool k).1 := by
  by_cases h : pool = []
  · subst h
    rw [getTopKTransactions]
    simp [removeTransactions]
  · rw [getTopKTransactions, if_neg h]

theorem getTopK_fst_length (pool : List GoTx) (k : ℕ) :
    (getTopKTransactions pool k).1.length = min k pool.length := by
  by_cases h : pool = []
  · subst h
    rw [getTopKTransactions]
    simp
  · rw [getTopK_fst_eq pool k h, List.length_take, bubbleSortGo_length]

theorem getTopK_fst_sorted (pool : List GoTx) (k : ℕ) :
    ((getTopKTransactions pool k).1).Sorted urgGE := by
  by_cases h : pool = []
  · subst h
    rw [getTopKTransactions]
    simp
  · rw [getTopK_fst_eq pool k h]
    exact (bubbleSortGo_sorted pool).sublist (List.take_sublist _ _)

theorem getTopK_fst_ids_nodup (pool : List GoTx) (k : ℕ)
    (hnodup : (pool.map GoTx.ID).Nodup) :
    ((getTopKTransactions pool k).1.map GoTx.ID).Nodup := by
  by_cases h : pool = []
  · subst h
    rw [getTopKTransactions]
    simp
  · rw [getTopK_fst_eq pool k h]
    have hperm : ((bubbleSortGo pool).map GoTx.ID).Perm (pool.map GoTx.ID) :=
      (bubbleSortGo_perm pool).map GoTx.ID
    have hsorted_nodup : ((bubbleSortGo pool).map GoTx.ID).Nodup :=
      hperm.nodup_iff.mpr hnodup
    rw [List.map_take]
    exact hsorted_nodup.sublist (List.take_sublist _ _)

theorem getTopK_fst_ids_sub (pool : List GoTx) (k : ℕ) :
    ∀ s ∈ (getTopKTransactions pool k).1.map GoTx.ID, s ∈ pool.map GoTx.ID := by
  by_cases h : pool = []
  · subst h
    rw [getTopKTransactions]
    simp
  · rw [getTopK_fst_eq pool k h]
    intro s hs
    have hsub : s ∈ (bubbleSortGo pool).map GoTx.ID :=
      ((List.take_sublist _ _).map _).subset hs
    exact ((bubbleSortGo_perm pool).map GoTx.ID).subset hsub

theorem getTopK_snd_length (pool : List GoTx) (k : ℕ)
    (hnodup : (pool.map GoTx.ID).Nodup) :
    (getTopKTransactions pool k).2.length
      = pool.length - (getTopKTransactions pool k).1.length := by
  rw [getTopK_snd_eq]
  unfold removeTransactions
  have hsplit := length_filter_add_length_filter_not pool
    (fun tx => decide (tx.ID ∈ (getTopKTransactions pool k).1.map GoTx.ID))
  have hcount := length_filter_mem_ids pool
    ((getTopKTransactions pool k).1.map GoTx.ID) hnodup
    (getTopK_fst_ids_nodup pool k hnodup) (getTopK_fst_ids_sub pool k)
  have hlen : ((getTopKTransactions pool k).1.map GoTx.ID).length
      = (getTopKTransactions pool k).1.length := List.length_map _ _
  have hnotP : (pool.filter
        (fun tx => decide (tx.ID ∉ (getTopKTransactions pool k).1.map GoTx.ID))).length
      = (pool.filter
        (fun tx => !(decide (tx.ID ∈ (getTopKTransactions pool k).1.map GoTx.ID)))).length := by
    congr 1
    apply List.filter_congr
    intro tx _
    rw [decide_not]
  rw [hnotP]
  omega

theorem getTopK_mem_snd_iff (pool : List GoTx) (k : ℕ) (tx : GoTx) (htx : tx ∈ pool) :
    tx ∈ (getTopKTransactions pool k).2
      ↔ tx.ID ∉ (getTopKTransactions pool k).1.map GoTx.ID := by
  rw [getTopK_snd_eq]
  unfold removeTransactions
  rw [List.mem_filter]
  simp [htx]

/-- C3, counterexample.  The claim says ties in urgency are broken by earlier
arrival time, then lexicographic id.  The Go bubble sort compares only
`UrgencyDegree` (strictly), so equal-urgency transactions keep their pool
insertion order: with a pool of two transactions of equal urgency 5, where the
first-inserted one arrived at t=10 with id "b" and the second arrived at t=3
with id "a", `GetTopKTransactions(2)` returns the t=10/"b" transaction first,
although the claimed tie-break (earlier arrival 3 < 10, and id "a" < "b")
demands the other order. -/
theorem drain_top_k_tiebreak_counterexample :
    ((getTopKTransactions
        [⟨"b", "v1", 10, 5⟩, ⟨"a", "v2", 3, 5⟩] 2).1.map GoTx.ID = ["b", "a"]) ∧
    ((getTopKTransactions
        [⟨"b", "v1", 10, 5⟩, ⟨"a", "v2", 3, 5⟩] 2).1.map GoTx.UrgencyDegree = [5, 5]) ∧
    ((getTopKTransactions
        [⟨"b", "v1", 10, 5⟩, ⟨"a", "v2", 3, 5⟩] 2).1.map GoTx.ArrivalTime = [10, 3]) ∧
    (3 : ℚ) < 10 := by
  refine ⟨?_, ?_, ?_, by norm_num⟩ <;> rfl

/-- C3, amended.  For every pool and every `k`, `GetTopKTransactions(k)`
returns exactly `min(k, size_before)` transactions in non-increasing urgency
order — ties are kept in pool insertion order (not re-ordered by arrival time
or id) — and, provided the pooled transaction ids are pairwise distinct (the
spec's id-uniqueness invariant), it shrinks the pool by exactly the number of
transactions returned. -/
theorem drain_top_k_spec (pool : List GoTx) (k : ℕ) :
    (getTopKTransactions pool k).1.length = min k pool.length ∧
    ((getTopKTransactions pool k).1).Sorted urgGE ∧
    ((pool.map GoTx.ID).Nodup →
      (getTopKTransactions pool k).2.length = pool.length - min k pool.length) := by
  refine ⟨getTopK_fst_length pool k, getTopK_fst_sorted pool k, ?_⟩
  intro h
  rw [getTopK_snd_length pool k h, getTopK_fst_length pool k]

/-- Witness for `drain_top_k_spec`, on the spec's seed pool of urgencies
`{1, 50, 20, 90, 90, 30}` with `k = 3` (returned: the two 90s and the 50;
pool size drops from 6 to 3). -/
theorem drain_top_k_spec_witness :
    (getTopKTransactions
      [⟨"t1", "v1", 0, 1⟩, ⟨"t2", "v2", 0, 50⟩, ⟨"t3", "v3", 0, 20⟩,
       ⟨"t4", "v4", 0, 90⟩, ⟨"t5", "v5", 0, 90⟩, ⟨"t6", "v6", 0, 30⟩] 3).1.length = 3 ∧
    ((getTopKTransactions
      [⟨"t1", "v1", 0, 1⟩, ⟨"t2", "v2", 0, 50⟩, ⟨"t3", "v3", 0, 20⟩,
       ⟨"t4", "v4", 0, 90⟩, ⟨"t5", "v5", 0, 90⟩, ⟨"t6", "v6", 0, 30⟩] 3).1).Sorted urgGE ∧
    (getTopKTransactions
      [⟨"t1", "v1", 0, 1⟩, ⟨"t2", "v2", 0, 50⟩, ⟨"t3", "v3", 0, 20⟩,
       ⟨"t4", "v4", 0, 90⟩, ⟨"t5", "v5", 0, 90⟩, ⟨"t6", "v6", 0, 30⟩] 3).2.length = 3 := by
  have h := drain_top_k_spec
    [⟨"t1", "v1", 0, 1⟩, ⟨"t2", "v2", 0, 50⟩, ⟨"t3", "v3", 0, 20⟩,
     ⟨"t4", "v4", 0, 90⟩, ⟨"t5", "v5", 0, 90⟩, ⟨"t6", "v6", 0, 30⟩] 3
  refine ⟨?_, h.2.1, ?_⟩
  · have h1 := h.1
    simpa using h1
  · have h2 := h.2.2 (by decide)
    simpa using h2

/-- C10.  `GetTopKTransactions` removes from the pool exactly those
transactions whose `ID` occurs among the IDs of the returned slice; with
duplicate ids the pool can shrink by more than the number returned (the
concrete pool `[a:9, a:1, c:5]` with `k = 1` returns one transaction and
shrinks by two), while with pairwise-distinct ids it shrinks by exactly the
returned count. -/
theorem getTopK_removes_by_id (pool : List GoTx) (k : ℕ) :
    (∀ tx ∈ pool,
      tx ∈ (getTopKTransactions pool k).2
        ↔ tx.ID ∉ (getTopKTransactions pool k).1.map GoTx.ID) ∧
    ((pool.map GoTx.ID).Nodup →
      (getTopKTransactions pool k).2.length
        = pool.length - (getTopKTransactions pool k).1.length) ∧
    ((getTopKTransactions
        [⟨"a", "v1", 0, 9⟩, ⟨"a", "v2", 0, 1⟩, ⟨"c", "v3", 0, 5⟩] 1).1.length = 1 ∧
     (getTopKTransactions
        [⟨"a", "v1", 0, 9⟩, ⟨"a", "v2", 0, 1⟩, ⟨"c", "v3", 0, 5⟩] 1).2.length = 1) := by
  exact ⟨fun tx htx => getTopK_mem_snd_iff pool k tx htx,
    fun h => getTopK_snd_length pool k h,
    by constructor <;> rfl⟩

/-- Witness for `getTopK_removes_by_id` on a two-element pool with distinct
ids and `k = 1`. -/
theorem getTopK_removes_by_id_witness :
    ((⟨"q", "w", 0, 3⟩ : GoTx) ∈
        (getTopKTransactions [⟨"p", "v", 0, 7⟩, ⟨"q", "w", 0, 3⟩] 1).2
      ↔ (⟨"q", "w", 0, 3⟩ : GoTx).ID ∉
        (getTopKTransactions [⟨"p", "v", 0, 7⟩, ⟨"q", "w", 0, 3⟩] 1).1.map GoTx.ID) ∧
    (getTopKTransactions [⟨"p", "v", 0, 7⟩, ⟨"q", "w", 0, 3⟩] 1).2.length
      = ([⟨"p", "v", 0, 7⟩, ⟨"q", "w", 0, 3⟩] : List GoTx).length
        - (getTopKTransactions [⟨"p", "v", 0, 7⟩, ⟨"q", "w", 0, 3⟩] 1).1.length := by
  have h := getTopK_removes_by_id [⟨"p", "v", 0, 7⟩, ⟨"q", "w", 0, 3⟩] 1
  exact ⟨h.1 _ (by decide), h.2.1 (by decide)⟩

/-- C4.  For every chain with a tip and every candidate block, `VerifyBlock`
returns true iff all five checks hold: index is tip index + 1, prev-hash is
the tip hash, the recomputed merkle root, hash and total urgency match the
stored fields.  Stated for arbitrary hash functions. -/
theorem verify_block_iff (shaHex : String → String)
    (headerHash : Int → String → String → String → String)
    (chain : List EBlock) (b tip : EBlock)
    (h : getLatestBlock chain = some tip) :
    verifyBlock shaHex headerHash chain b = true ↔
      (b.Index = tip.Index + 1 ∧ b.PrevHash = tip.Hash ∧
       b.MerkleRoot = calculateMerkleRoot shaHex b ∧
       b.Hash = calculateHash headerHash b ∧
       b.TotalUrgency = calculateTotalUrgency b) := by
  unfold verifyBlock
  rw [h]
  split_ifs <;> simp_all

/-- Witness for `verify_block_iff`: on the genesis chain with constant hash
functions, a block with index 1, prev-hash "genesis", matching recomputed
fields passes `VerifyBlock`. -/
theorem verify_block_iff_witness :
    verifyBlock (fun _ => "H") (fun _ _ _ _ => "HH") [genesisBlock "T"]
      { Index := 1, TimestampStr := "T2", PrevHash := "genesis", Hash := "HH",
        MerkleRoot := "", Signature := "", ValidatorIDs := [],
        Transactions := [], TotalUrgency := 0 } = true := by
  exact (verify_block_iff (fun _ => "H") (fun _ _ _ _ => "HH") [genesisBlock "T"]
    _ (genesisBlock "T") rfl).mpr (by decide)

theorem lookupEntry_setEntry {α : Type} (tbl : List (String × α)) (h : String) (v : α) :
    lookupEntry (setEntry tbl h v) h = some v := by
  unfold lookupEntry setEntry deleteEntry
  induction tbl with
  | nil => simp
  | cons p t ih =>
    by_cases hp : p.1 == h
    · simp only [List.filter_cons, hp, Bool.not_true, List.find?]
      exact ih
    · simp only [List.filter_cons, hp, Bool.not_false, List.filter, List.find?]
      simp [List.find?, hp]

/-- C9.  A committee member receiving an Announce (`PrePrepare`) whose block
fails `VerifyBlock` drops it silently: the state (chain, pool, all three
tables) is unchanged and no Endorse (`Prepare`) is emitted.  When the block
verifies, the announcement is recorded under its hash and a `Prepare`
carrying the same block, signed by the member, is broadcast.  Non-committee
nodes ignore Announce entirely. -/
theorem announce_handling_spec (shaHex : String → String)
    (headerHash : Int → String → String → String → String)
    (nowStr : String) (msg : ConsensusMsg) (s : ENodeState) :
    (s.IsValidator = false →
      handlePrePrepare shaHex headerHash nowStr msg s = (s, none)) ∧
    (s.IsValidator = true →
      verifyBlock shaHex headerHash s.chain msg.Block = false →
      handlePrePrepare shaHex headerHash nowStr msg s = (s, none)) ∧
    (s.IsValidator = true →
      verifyBlock shaHex headerHash s.chain msg.Block = true →
      lookupEntry (handlePrePrepare shaHex headerHash nowStr msg s).1.prePrepareReceived
          msg.BlockHash = some msg ∧
      (handlePrePrepare shaHex headerHash nowStr msg s).1.chain = s.chain ∧
      (handlePrePrepare shaHex headerHash nowStr msg s).1.pool = s.pool ∧
      (handlePrePrepare shaHex headerHash nowStr msg s).1.prepareVotes = s.prepareVotes ∧
      (handlePrePrepare shaHex headerHash nowStr msg s).1.commitVotes = s.commitVotes ∧
      (handlePrePrepare shaHex headerHash nowStr msg s).2
        = some { MType := .prepare, BlockHash := msg.BlockHash, Block := msg.Block,
                 From := s.ID, TimestampStr := nowStr }) := by
  refine ⟨?_, ?_, ?_⟩
  · intro hval
    unfold handlePrePrepare
    rw [hval]
    simp
  · intro hval hver
    unfold handlePrePrepare
    rw [hval, hver]
    simp
  · intro hval hver
    unfold handlePrePrepare
    rw [hval, hver]
    simpa using lookupEntry_setEntry s.prePrepareReceived msg.BlockHash msg

/-- Witness for `announce_handling_spec`: with constant hash functions, a
fresh validator drops a non-linking junk block silently, a fresh
non-validator ignores even a valid block, and a fresh validator records a
valid announce and emits the corresponding `Prepare`. -/
theorem announce_handling_spec_witness :
    (handlePrePrepare (fun _ => "H") (fun _ _ _ _ => "HH") "T2"
        (junkCommitMsg "p") (initialENodeState "n1" "T" true)
      = (initialENodeState "n1" "T" true, none)) ∧
    (handlePrePrepare (fun _ => "H") (fun _ _ _ _ => "HH") "T2"
        { MType := .prePrepare, BlockHash := "HH",
          Block := { Index := 1, TimestampStr := "T2", PrevHash := "genesis",
                     Hash := "HH", MerkleRoot := "", Signature := "",
                     ValidatorIDs := [], Transactions := [], TotalUrgency := 0 },
          From := "p", TimestampStr := "T1" } (initialENodeState "n2" "T" false)
      = (initialENodeState "n2" "T" false, none)) ∧
    lookupEntry (handlePrePrepare (fun _ => "H") (fun _ _ _ _ => "HH") "T2"
        { MType := .prePrepare, BlockHash := "HH",
          Block := { Index := 1, TimestampStr := "T2", PrevHash := "genesis",
                     Hash := "HH", MerkleRoot := "", Signature := "",
                     ValidatorIDs := [], Transactions := [], TotalUrgency := 0 },
          From := "p", TimestampStr := "T1" }
        (initialENodeState "n1" "T" true)).1.prePrepareReceived "HH"
      = some { MType := .prePrepare, BlockHash := "HH",
               Block := { Index := 1, TimestampStr := "T2", PrevHash := "genesis",
                          Hash := "HH", MerkleRoot := "", Signature := "",
                          ValidatorIDs := [], Transactions := [], TotalUrgency := 0 },
               From := "p", TimestampStr := "T1" } := by
  refine ⟨?_, ?_, ?_⟩
  · exact (announce_handling_spec (fun _ => "H") (fun _ _ _ _ => "HH") "T2"
      (junkCommitMsg "p") (initialENodeState "n1" "T" true)).2.1 rfl (by decide)
  · exact (announce_handling_spec (fun _ => "H") (fun _ _ _ _ => "HH") "T2"
      _ (initialENodeState "n2" "T" false)).1 rfl
  · exact ((announce_handling_spec (fun _ => "H") (fun _ _ _ _ => "HH") "T2"
      _ (initialENodeState "n1" "T" true)).2.2 rfl (by decide)).1

theorem handlePrePrepare_chain_eq (shaHex : String → String)
    (headerHash : Int → String → String → String → String)
    (nowStr : String) (msg : ConsensusMsg) (s : ENodeState) :
    (handlePrePrepare shaHex headerHash nowStr msg s).1.chain = s.chain := by
  unfold handlePrePrepare
  split_ifs <;> rfl

theorem handlePrepare_chain_eq (N : ℕ) (nowStr : String) (msg : ConsensusMsg)
    (s : ENodeState) :
    (handlePrepare N nowStr msg s).1.chain = s.chain := by
  simp only [handlePrepare]
  split_ifs <;> rfl

theorem handleCommit_chain_of_appends (N : ℕ) (msg : ConsensusMsg) (s : ENodeState)
    (h : commitAppends N msg s) :
    (handleCommit N msg s).chain = s.chain ++ [msg.Block] := by
  unfold commitAppends at h
  unfold handleCommit
  rw [if_pos h]

theorem handleCommit_chain_of_not_appends (N : ℕ) (msg : ConsensusMsg) (s : ENodeState)
    (h : ¬ commitAppends N msg s) :
    (handleCommit N msg s).chain = s.chain := by
  unfold commitAppends at h
  unfold handleCommit
  rw [if_neg h]

theorem propose_chain_eq (shaHex : String → String)
    (headerHash : Int → String → String → String → String)
    (blockSize : ℕ) (validatorIDs : List String) (nowStr : String)
    (s : ENodeState) :
    (proposeEmergencyBlock shaHex headerHash blockSize validatorIDs nowStr s).1.chain
      = s.chain := by
  simp only [proposeEmergencyBlock]
  split_ifs
  · rfl
  · rfl
  · rfl
  · split
    · rfl
    · rw [handlePrePrepare_chain_eq]

theorem head?_append_single {l : List EBlock} {g b : EBlock}
    (h : l.head? = some g) : (l ++ [b]).head? = some g := by
  cases l with
  | nil => simp at h
  | cons x r => simpa using h

/-- Any step of the (unrestricted) node dynamics either keeps the chain or
appends a single block at its end. -/
theorem nodeStep_chain (shaHex : String → String)
    (headerHash : Int → String → String → String → String)
    (N blockSize : ℕ) (validatorIDs : List String) {s s' : ENodeState}
    (hstep : NodeStep shaHex headerHash N blockSize validatorIDs s s') :
    s'.chain = s.chain ∨ ∃ b, s'.chain = s.chain ++ [b] := by
  cases hstep with
  | prePrepare nowStr msg s2 => exact Or.inl (handlePrePrepare_chain_eq _ _ _ _ _)
  | prepare nowStr msg s2 => exact Or.inl (handlePrepare_chain_eq _ _ _ _)
  | commit msg s2 =>
    by_cases h : commitAppends N msg s
    · exact Or.inr ⟨msg.Block, handleCommit_chain_of_appends _ _ _ h⟩
    · exact Or.inl (handleCommit_chain_of_not_appends _ _ _ h)
  | propose nowStr s2 => exact Or.inl (propose_chain_eq _ _ _ _ _ _)

theorem reachable_chain_head (shaHex : String → String)
    (headerHash : Int → String → String → String → String)
    (N blockSize : ℕ) (validatorIDs : List String) (id t0 : String)
    (isValidator : Bool) {s : ENodeState}
    (hs : ReachableENode shaHex headerHash N blockSize validatorIDs id t0 isValidator s) :
    s.chain.head? = some (genesisBlock t0) := by
  induction hs with
  | init => rfl
  | step _ hstep ih =>
    rcases nodeStep_chain _ _ _ _ _ hstep with heq | ⟨b, heq⟩
    · rw [heq]; exact ih
    · rw [heq]; exact head?_append_single ih

theorem linkedNodeStep_preserves (shaHex : String → String)
    (headerHash : Int → String → String → String → String)
    (N blockSize : ℕ) (validatorIDs : List String) (g : EBlock)
    {s s' : ENodeState}
    (hstep : LinkedNodeStep shaHex headerHash N blockSize validatorIDs s s')
    (ih : chainLinked s.chain ∧ s.chain.head? = some g) :
    chainLinked s'.chain ∧ s'.chain.head? = some g := by
  cases hstep with
  | prePrepare nowStr msg s2 =>
    rw [handlePrePrepare_chain_eq]
    exact ih
  | prepare nowStr msg s2 =>
    rw [handlePrepare_chain_eq]
    exact ih
  | commit msg s2 hlink =>
    by_cases h : commitAppends N msg s
    · rw [handleCommit_chain_of_appends _ _ _ h]
      obtain ⟨tip, htip, hidx, hprev⟩ := hlink h
      constructor
      · apply List.Chain'.append ih.1 (List.chain'_singleton _)
        intro x hx y hy
        simp only [List.head?_cons, Option.mem_def, Option.some.injEq] at hy
        rw [htip] at hx
        simp only [Option.mem_def, Option.some.injEq] at hx
        subst hx
        subst hy
        exact ⟨hprev, hidx⟩
      · exact head?_append_single ih.2
    · rw [handleCommit_chain_of_not_appends _ _ _ h]
      exact ih
  | propose nowStr s2 =>
    rw [propose_chain_eq]
    exact ih

theorem linked_reachable_chainLinked (shaHex : String → String)
    (headerHash : Int → String → String → String → String)
    (N blockSize : ℕ) (validatorIDs : List String) (id t0 : String)
    (isValidator : Bool) {s : ENodeState}
    (hs : LinkedReachableENode shaHex headerHash N blockSize validatorIDs id t0
      isValidator s) :
    chainLinked s.chain ∧ s.chain.head? = some (genesisBlock t0) := by
  induction hs with
  | init =>
    constructor
    · exact List.chain'_singleton _
    · rfl
  | step hprev hstep ih =>
    exact linkedNodeStep_preserves _ _ _ _ _ _ hstep ih

/-- C5, counterexample.  `handleCommit` appends `msg.Block` without any
verification once `2f+1` distinct commit votes for its hash arrive.  From a
fresh validator node with committee size `N = 4` (`f = 1`), three `Commit`
messages from senders v1, v2, v3 carrying a block of index 5 with prev-hash
"xyz" produce a reachable state whose chain is `[genesis, junk]`: the link
invariant `chain[1].Index = chain[0].Index + 1` fails (5 ≠ 1). -/
theorem chain_link_counterexample :
    ReachableENode (fun _ => "") (fun _ _ _ _ => "") 4 1 [] "n1" "T" true
      junkCommittedState ∧
    junkCommittedState.chain.map EBlock.Index = [0, 5] ∧
    ¬ chainLinked junkCommittedState.chain := by
  refine ⟨?_, by decide, ?_⟩
  · exact .step (.step (.step .init (.commit (junkCommitMsg "v1") _))
      (.commit (junkCommitMsg "v2") _)) (.commit (junkCommitMsg "v3") _)
  · intro hch
    have hchain : junkCommittedState.chain = [genesisBlock "T", junkBlock] := by decide
    rw [hchain] at hch
    unfold chainLinked at hch
    have := (List.chain'_cons.mp hch).1.2
    simp [junkBlock, genesisBlock] at this

/-- C5, amended.  Every reachable chain state of a node starts with the
genesis block (index 0, prev-hash "0", hash "genesis", empty transaction
set); and the link invariant (for all i > 0, `chain[i].PrevHash =
chain[i-1].Hash` and `chain[i].Index = chain[i-1].Index + 1`) holds for every
state reachable under the discipline that a commit reaching its `2f+1`
threshold only appends a block that links onto the node's current tip — the
situation when committed blocks passed `VerifyBlock` against the same tip at
Announce.  `handleCommit` itself appends unconditionally, so unconstrained
commit traffic can break the link invariant
(see the counterexample). -/
theorem chain_genesis_and_link (shaHex : String → String)
    (headerHash : Int → String → String → String → String)
    (N blockSize : ℕ) (validatorIDs : List String) (id t0 : String)
    (isValidator : Bool) (s : ENodeState) :
    (ReachableENode shaHex headerHash N blockSize validatorIDs id t0 isValidator s →
      s.chain.head? = some (genesisBlock t0)) ∧
    (LinkedReachableENode shaHex headerHash N blockSize validatorIDs id t0 isValidator s →
      chainLinked s.chain ∧ s.chain.head? = some (genesisBlock t0)) :=
  ⟨fun hs => reachable_chain_head _ _ _ _ _ _ _ _ hs,
   fun hs => linked_reachable_chainLinked _ _ _ _ _ _ _ _ hs⟩

/-- Witness for `chain_genesis_and_link` at the freshly constructed node. -/
theorem chain_genesis_and_link_witness :
    (initialENodeState "n1" "T" true).chain.head? = some (genesisBlock "T") ∧
    chainLinked (initialENodeState "n1" "T" true).chain := by
  have h := chain_genesis_and_link (fun _ => "") (fun _ _ _ _ => "") 4 1 [] "n1" "T"
    true (initialENodeState "n1" "T" true)
  exact ⟨h.1 .init, (h.2 .init).1⟩

theorem insertDescByRep_perm (v : GoValidator) :
    ∀ l : List GoValidator, (insertDescByRep v l).Perm (v :: l) := by
  intro l
  induction l with
  | nil => rfl
  | cons w ws ih =>
    rw [insertDescByRep]
    split
    · rfl
    · exact (ih.cons w).trans (List.Perm.swap v w ws)

theorem insertDescByRep_sorted (v : GoValidator) {l : List GoValidator}
    (hl : l.Sorted repGE) : (insertDescByRep v l).Sorted repGE := by
  induction l with
  | nil => simp [insertDescByRep, List.sorted_singleton]
  | cons w ws ih =>
    rw [insertDescByRep]
    rw [List.sorted_cons] at hl
    split
    · rename_i hvw
      rw [List.sorted_cons]
      refine ⟨?_, List.sorted_cons.mpr hl⟩
      intro b hb
      rcases List.mem_cons.mp hb with rfl | hb
      · exact le_of_lt hvw
      · exact le_trans (hl.1 b hb) (le_of_lt hvw)
    · rename_i hvw
      rw [List.sorted_cons]
      refine ⟨?_, ih hl.2⟩
      intro b hb
      have hb' : b ∈ v :: ws := (insertDescByRep_perm v ws).subset hb
      rcases List.mem_cons.mp hb' with rfl | hb'
      · exact le_of_not_lt hvw
      · exact hl.1 b hb'

theorem insertionSortByRepDesc_perm_aux (l : List GoValidator) :
    ∀ acc : List GoValidator,
      (l.foldl (fun acc v => insertDescByRep v acc) acc).Perm (acc ++ l) := by
  induction l with
  | nil => intro acc; simp
  | cons v vs ih =>
    intro acc
    rw [List.foldl_cons]
    refine (ih (insertDescByRep v acc)).trans ?_
    have h1 : (insertDescByRep v acc ++ vs).Perm ((v :: acc) ++ vs) :=
      (insertDescByRep_perm v acc).append_right vs
    refine h1.trans ?_
    simp only [List.cons_append]
    exact List.perm_middle.symm

theorem insertionSortByRepDesc_perm (l : List GoValidator) :
    (insertionSortByRepDesc l).Perm l := by
  have h := insertionSortByRepDesc_perm_aux l []
  simpa [insertionSortByRepDesc] using h

theorem insertionSortByRepDesc_sorted_aux (l : List GoValidator) :
    ∀ acc : List GoValidator, acc.Sorted repGE →
      (l.foldl (fun acc v => insertDescByRep v acc) acc).Sorted repGE := by
  induction l with
  | nil => intro acc hacc; simpa using hacc
  | cons v vs ih =>
    intro acc hacc
    rw [List.foldl_cons]
    exact ih _ (insertDescByRep_sorted v hacc)

theorem insertionSortByRepDesc_sorted (l : List GoValidator) :
    (insertionSortByRepDesc l).Sorted repGE :=
  insertionSortByRepDesc_sorted_aux l [] List.sorted_nil

/-- The short-slice insertion sort meets `sort.Slice`'s documented contract:
a non-increasing-reputation permutation of its input. -/
theorem insertionSortByRepDesc_spec : SortSliceSpec insertionSortByRepDesc :=
  fun l => ⟨insertionSortByRepDesc_perm l, insertionSortByRepDesc_sorted l⟩

/-- C6, counterexample.  The claim says ties in reputation are broken by id
ascending.  `SelectValidators` sorts with `sort.Slice` on `Reputation > `
only, with no id comparison anywhere; on this 2-element slice Go's sort
runs its short-slice insertion sort (= `insertionSortByRepDesc`), which is
stable, so tied candidates keep their `nodeIDs` order: with candidates
`["b", "a"]`, both of reputation 1/2, and `GroupSize = 1`, the stored
committee is `[b]`, although id-ascending tie-breaking demands `[a]`. -/
theorem select_validators_tiebreak_counterexample :
    ((selectValidators insertionSortByRepDesc
        { Validators := [], GroupSize := 1, ActivePeriod := 2,
          CurrentRound := 5, CreatedAt := "t" }
        ["b", "a"] (fun _ => some ((1 : ℝ) / 2)) "t2").Validators.map GoValidator.ID
      = ["b"]) ∧
    candidatesOf ["b", "a"] (fun _ => some ((1 : ℝ) / 2))
      = [⟨"b", (1 : ℝ) / 2⟩, ⟨"a", (1 : ℝ) / 2⟩] ∧
    ("a" : String) ≠ "b" := by
  refine ⟨?_, by simp [candidatesOf], by simp⟩
  simp [selectValidators, candidatesOf, insertionSortByRepDesc, insertDescByRep]

/-- C6, amended.  `NeedRefresh` is true exactly when `CurrentRound ≥
ActivePeriod` or the member list is empty.  For any reordering `sortImpl`
meeting `sort.Slice`'s documented contract (a non-increasing-reputation
permutation; tie order implementation-defined since `sort.Slice` is
unstable), immediately after `SelectValidators` the stored members are the
first `GroupSize` entries of the reordered candidate list: they are sorted
by reputation descending, number `min GroupSize |candidates|`, and form a
top-N selection — the candidates split into the members plus a rest in
which every entry's reputation is at most every member's.  The round
counter is reset to 0, and hence (for a positive `ActivePeriod`)
`NeedRefresh` is false whenever the new committee is non-empty. -/
theorem select_validators_spec (sortImpl : List GoValidator → List GoValidator)
    (hspec : SortSliceSpec sortImpl) (vg : ValidatorGroup) (nodeIDs : List String)
    (repuOf : String → Option ℝ) (nowStr : String) :
    (needRefresh vg = true ↔
      (vg.ActivePeriod ≤ vg.CurrentRound ∨ vg.Validators = [])) ∧
    ((selectValidators sortImpl vg nodeIDs repuOf nowStr).Validators
      = (sortImpl (candidatesOf nodeIDs repuOf)).take vg.GroupSize) ∧
    ((selectValidators sortImpl vg nodeIDs repuOf nowStr).Validators.Sorted repGE) ∧
    ((selectValidators sortImpl vg nodeIDs repuOf nowStr).Validators.length
      = min vg.GroupSize (candidatesOf nodeIDs repuOf).length) ∧
    (∃ rest : List GoValidator,
      ((selectValidators sortImpl vg nodeIDs repuOf nowStr).Validators
        ++ rest).Perm (candidatesOf nodeIDs repuOf) ∧
      ∀ v ∈ (selectValidators sortImpl vg nodeIDs repuOf nowStr).Validators,
        ∀ w ∈ rest, w.Reputation ≤ v.Reputation) ∧
    ((selectValidators sortImpl vg nodeIDs repuOf nowStr).CurrentRound = 0) ∧
    (0 < vg.ActivePeriod →
      (selectValidators sortImpl vg nodeIDs repuOf nowStr).Validators ≠ [] →
      needRefresh (selectValidators sortImpl vg nodeIDs repuOf nowStr) = false) := by
  obtain ⟨hperm, hsorted⟩ := hspec (candidatesOf nodeIDs repuOf)
  have htake : (selectValidators sortImpl vg nodeIDs repuOf nowStr).Validators
      = (sortImpl (candidatesOf nodeIDs repuOf)).take vg.GroupSize := by
    simp only [selectValidators]
    split
    · rename_i hlt
      rw [List.take_of_length_le (le_of_lt hlt)]
    · rfl
  have hsplit : ((sortImpl (candidatesOf nodeIDs repuOf)).take vg.GroupSize
      ++ (sortImpl (candidatesOf nodeIDs repuOf)).drop vg.GroupSize).Pairwise repGE := by
    rw [List.take_append_drop]
    exact hsorted
  refine ⟨?_, htake, ?_, ?_, ?_, rfl, ?_⟩
  · unfold needRefresh vgIsActive
    simp [List.length_eq_zero, or_comm, not_lt, imp_iff_or_not]
  · rw [htake]
    exact (List.pairwise_append.mp hsplit).1
  · rw [htake, List.length_take, hperm.length_eq]
  · refine ⟨(sortImpl (candidatesOf nodeIDs repuOf)).drop vg.GroupSize, ?_, ?_⟩
    · rw [htake, List.take_append_drop]
      exact hperm
    · rw [htake]
      exact fun v hv w hw => (List.pairwise_append.mp hsplit).2.2 v hv w hw
  · intro hper hne
    unfold needRefresh vgIsActive selectValidators
    simp only [Bool.or_eq_false_iff, Bool.not_eq_false']
    constructor
    · exact decide_eq_true hper
    · have : (selectValidators sortImpl vg nodeIDs repuOf nowStr).Validators ≠ [] := hne
      unfold selectValidators at this
      simpa [List.length_eq_zero] using this

/-- Witness for `select_validators_spec`, instantiated at the short-slice
implementation `insertionSortByRepDesc` of the `sort.Slice` contract: a
stale group (`CurrentRound = 5 ≥ ActivePeriod = 2`) needs refresh;
selecting from one candidate of reputation 1/2 yields a singleton
committee, round 0, and no further refresh need. -/
theorem select_validators_spec_witness :
    (needRefresh
      { Validators := [], GroupSize := 1, ActivePeriod := 2,
        CurrentRound := 5, CreatedAt := "t" } = true) ∧
    ((selectValidators insertionSortByRepDesc
      { Validators := [], GroupSize := 1, ActivePeriod := 2,
        CurrentRound := 5, CreatedAt := "t" }
      ["x"] (fun _ => some ((1 : ℝ) / 2)) "t2").CurrentRound = 0) ∧
    (needRefresh (selectValidators insertionSortByRepDesc
      { Validators := [], GroupSize := 1, ActivePeriod := 2,
        CurrentRound := 5, CreatedAt := "t" }
      ["x"] (fun _ => some ((1 : ℝ) / 2)) "t2") = false) := by
  have h := select_validators_spec insertionSortByRepDesc insertionSortByRepDesc_spec
    { Validators := [], GroupSize := 1, ActivePeriod := 2,
      CurrentRound := 5, CreatedAt := "t" }
    ["x"] (fun _ => some ((1 : ℝ) / 2)) "t2"
  refine ⟨?_, h.2.2.2.2.2.1, ?_⟩
  · exact h.1.mpr (Or.inr rfl)
  · refine h.2.2.2.2.2.2 (by norm_num) ?_
    simp [selectValidators, candidatesOf, insertionSortByRepDesc, insertDescByRep]

theorem thetaOf_nonneg (cfg : RConfig) (log : List RInteraction) (subj : String)
    (now : ℝ) (hmu : 0 ≤ cfg.Mu) : 0 ≤ thetaOf cfg log subj now := by
  unfold thetaOf
  dsimp only
  split
  · apply div_nonneg hmu
    have := Real.exp_pos ((List.map (fun e =>
      weightOf cfg log subj now e * ((aggInteraction log subj e).NegEvents : ℝ))
      (evaluatorsOf log subj)).sum /
      (List.map (fun e => weightOf cfg log subj now e) (evaluatorsOf log subj)).sum)
    linarith
  · exact le_refl 0

theorem thetaOf_le_one (cfg : RConfig) (log : List RInteraction) (subj : String)
    (now : ℝ) (hmu0 : 0 ≤ cfg.Mu) (hmu1 : cfg.Mu ≤ 1) :
    thetaOf cfg log subj now ≤ 1 := by
  unfold thetaOf
  dsimp only
  split
  · refine le_trans (div_le_self hmu0 ?_) hmu1
    have := Real.exp_pos ((List.map (fun e =>
      weightOf cfg log subj now e * ((aggInteraction log subj e).NegEvents : ℝ))
      (evaluatorsOf log subj)).sum /
      (List.map (fun e => weightOf cfg log subj now e) (evaluatorsOf log subj)).sum)
    linarith
  · norm_num

theorem uncOf_pos (log : List RInteraction) (subj e : String) :
    0 < uncOf log subj e := by
  unfold uncOf
  have h : (0 : ℝ) < 2 + (eventCount log subj e : ℝ) := by positivity
  positivity

theorem uncOf_le_one (log : List RInteraction) (subj e : String) :
    uncOf log subj e ≤ 1 := by
  unfold uncOf
  rw [div_le_one (by positivity)]
  have : (0 : ℝ) ≤ (eventCount log subj e : ℝ) := Nat.cast_nonneg _
  linarith

theorem directOpinionAt_weight (cfg : RConfig) (log : List RInteraction)
    (subj : String) (now : ℝ) (e : String) :
    (directOpinionAt cfg log subj now e).Weight = weightOf cfg log subj now e := by
  unfold directOpinionAt
  dsimp only
  split <;> rfl

theorem directOpinionAt_I (cfg : RConfig) (log : List RInteraction)
    (subj : String) (now : ℝ) (e : String) :
    (directOpinionAt cfg log subj now e).Opinion.I = uncOf log subj e := by
  unfold directOpinionAt
  dsimp only
  split <;> rfl

/-- Componentwise bounds on every filled direct opinion, for `0 ≤ μ ≤ 1`. -/
theorem directOpinionAt_bounds (cfg : RConfig) (log : List RInteraction)
    (subj : String) (now : ℝ) (e : String)
    (hmu0 : 0 ≤ cfg.Mu) (hmu1 : cfg.Mu ≤ 1) :
    0 ≤ (directOpinionAt cfg log subj now e).Opinion.T ∧
    0 ≤ (directOpinionAt cfg log subj now e).Opinion.D ∧
    (directOpinionAt cfg log subj now e).Opinion.T +
      (directOpinionAt cfg log subj now e).Opinion.I ≤ 1 ∧
    (directOpinionAt cfg log subj now e).Opinion.D +
      (directOpinionAt cfg log subj now e).Opinion.I ≤ 1 := by
  have hth0 := thetaOf_nonneg cfg log subj now hmu0
  have hth1 := thetaOf_le_one cfg log subj now hmu0 hmu1
  have hI0 := uncOf_pos log subj e
  have hI1 := uncOf_le_one log subj e
  unfold directOpinionAt
  dsimp only
  split
  · rename_i hsum
    set theta := thetaOf cfg log subj now with htheta
    set Ii := uncOf log subj e with hIi
    set p := ((aggInteraction log subj e).PosEvents : ℝ) with hp
    set q := ((aggInteraction log subj e).NegEvents : ℝ) with hq
    have hp0 : 0 ≤ p := Nat.cast_nonneg _
    have hq0 : 0 ≤ q := Nat.cast_nonneg _
    have halpha : 0 ≤ (1 - theta) * p := mul_nonneg (by linarith) hp0
    have hbeta : 0 ≤ theta * q := mul_nonneg hth0 hq0
    have hs : (0 : ℝ) < (1 - theta) * p + theta * q := hsum
    have h1I : 0 ≤ 1 - Ii := by linarith
    refine ⟨?_, ?_, ?_, ?_⟩
    · exact div_nonneg (mul_nonneg h1I halpha) (le_of_lt hs)
    · exact div_nonneg (mul_nonneg h1I hbeta) (le_of_lt hs)
    · have hfrac : (1 - theta) * p / ((1 - theta) * p + theta * q) ≤ 1 := by
        rw [div_le_one hs]
        linarith
      calc (1 - Ii) * ((1 - theta) * p) / ((1 - theta) * p + theta * q) + Ii
          = (1 - Ii) * ((1 - theta) * p / ((1 - theta) * p + theta * q)) + Ii := by
            ring
        _ ≤ (1 - Ii) * 1 + Ii := by
            have := mul_le_mul_of_nonneg_left hfrac h1I
            linarith
        _ = 1 := by ring
    · have hfrac : theta * q / ((1 - theta) * p + theta * q) ≤ 1 := by
        rw [div_le_one hs]
        linarith
      calc (1 - Ii) * (theta * q) / ((1 - theta) * p + theta * q) + Ii
          = (1 - Ii) * (theta * q / ((1 - theta) * p + theta * q)) + Ii := by
            ring
        _ ≤ (1 - Ii) * 1 + Ii := by
            have := mul_le_mul_of_nonneg_left hfrac h1I
            linarith
        _ = 1 := by ring
  · refine ⟨le_refl 0, le_refl 0, ?_, ?_⟩ <;> simp <;> linarith

/-- C8, counterexample.  With all evidence weight on trajectory similarity
(`ρ = (0,0,1)`) and empty trajectories, the direct weight is 0, so
`Σδ = 0` forces `θ = 0`; for a purely negative interaction (pos 0, neg 3)
then `α = β = 0` and the filled opinion is `(0, 0, 2/5)` with
`T + D + I = 2/5 ≠ 1` (far beyond float tolerance), and the fused opinion is
`(0, 0, 0)` with sum 0. -/
theorem opinion_sum_counterexample :
    "A" ∈ evaluatorsOf logNeg3 "B" ∧
    (directOpinionAt cfgRho3 logNeg3 "B" 0 "A").Opinion.T +
      (directOpinionAt cfgRho3 logNeg3 "B" 0 "A").Opinion.D +
      (directOpinionAt cfgRho3 logNeg3 "B" 0 "A").Opinion.I = 2 / 5 ∧
    (2 : ℝ) / 5 ≠ 1 ∧
    (fuseOpinions (directOpinionsOf cfgRho3 logNeg3 "B" 0)
        (indirectOpinionsOf cfgRho3 logNeg3 0 "B")).T +
      (fuseOpinions (directOpinionsOf cfgRho3 logNeg3 "B" 0)
        (indirectOpinionsOf cfgRho3 logNeg3 0 "B")).D +
      (fuseOpinions (directOpinionsOf cfgRho3 logNeg3 "B" 0)
        (indirectOpinionsOf cfgRho3 logNeg3 0 "B")).I = 0 := by
  have hevals : evaluatorsOf logNeg3 "B" = ["A"] := rfl
  have hagg : aggInteraction logNeg3 "B" "A" =
      ⟨"A", "B", 0, 3, 0, [], [], .normalTx, 0⟩ := rfl
  have hsim : computeTrajectorySimilarity cfgRho3
      ([] : List RVector) ([] : List RVector) = 0 := by
    unfold computeTrajectorySimilarity cosineSimilarity
    norm_num
  have hw : weightOf cfgRho3 logNeg3 "B" 0 "A" = 0 := by
    unfold weightOf
    rw [hagg]
    dsimp only
    rw [hsim]
    show ((cfgRho3.Rho1 * _ + cfgRho3.Rho2 * _ + cfgRho3.Rho3 * 0) *
      calculateTransactionWeight RTxType.normalTx 0) = 0
    unfold calculateTransactionWeight cfgRho3
    norm_num
  have htheta : thetaOf cfgRho3 logNeg3 "B" 0 = 0 := by
    unfold thetaOf
    rw [hevals]
    dsimp only
    rw [List.map_singleton, List.map_singleton, hw]
    norm_num
  have hd : directOpinionAt cfgRho3 logNeg3 "B" 0 "A" =
      ⟨⟨0, 0, 2 / 5⟩, 0⟩ := by
    unfold directOpinionAt
    rw [hagg, htheta, hw]
    dsimp only
    have hcond : ¬ ((1 - 0) * ((0 : ℕ) : ℝ) + 0 * ((3 : ℕ) : ℝ) > 0) := by
      norm_num
    rw [if_neg hcond]
    have hunc : uncOf logNeg3 "B" "A" = 2 / 5 := by
      unfold uncOf
      have : eventCount logNeg3 "B" "A" = 3 := rfl
      rw [this]
      norm_num
    rw [hunc]
  have hind : indirectSources logNeg3 "B" = [] := rfl
  have hindop : indirectOpinionsOf cfgRho3 logNeg3 0 "B" = [] := by
    unfold indirectOpinionsOf
    rw [hind]
    rfl
  have hdir : directOpinionsOf cfgRho3 logNeg3 "B" 0 = [⟨⟨0, 0, 2 / 5⟩, 0⟩] := by
    unfold directOpinionsOf
    rw [hevals, List.map_singleton, hd]
  have hfuse : fuseOpinions (directOpinionsOf cfgRho3 logNeg3 "B" 0)
      (indirectOpinionsOf cfgRho3 logNeg3 0 "B") = ⟨0, 0, 0⟩ := by
    rw [hdir, hindop]
    unfold fuseOpinions fuseDirectAggregate
    norm_num
  refine ⟨by rw [hevals]; exact List.mem_singleton.mpr rfl, ?_, by norm_num, ?_⟩
  · rw [hd]
    norm_num
  · rw [hfuse]
    norm_num

/-- C8, amended.  Every per-evaluator direct opinion whose effective
evidence `α + β = (1-θ)·pos + θ·neg` is positive satisfies `T + D + I = 1`
exactly and, for `0 ≤ μ ≤ 1`, has every component in `[0,1]`.  (Opinions
with `α + β = 0` keep `T = D = 0` and sum to `I < 1`, and the fused opinion
does not renormalise — see the counterexample.) -/
theorem direct_opinion_normalized (cfg : RConfig) (log : List RInteraction)
    (subj : String) (now : ℝ) (e : String)
    (_he : e ∈ evaluatorsOf log subj)
    (hmu0 : 0 ≤ cfg.Mu) (hmu1 : cfg.Mu ≤ 1)
    (hev : 0 < effectiveEvidence cfg log subj now e) :
    (directOpinionAt cfg log subj now e).Opinion.T +
      (directOpinionAt cfg log subj now e).Opinion.D +
      (directOpinionAt cfg log subj now e).Opinion.I = 1 ∧
    0 ≤ (directOpinionAt cfg log subj now e).Opinion.T ∧
    (directOpinionAt cfg log subj now e).Opinion.T ≤ 1 ∧
    0 ≤ (directOpinionAt cfg log subj now e).Opinion.D ∧
    (directOpinionAt cfg log subj now e).Opinion.D ≤ 1 ∧
    0 < (directOpinionAt cfg log subj now e).Opinion.I ∧
    (directOpinionAt cfg log subj now e).Opinion.I ≤ 1 := by
  obtain ⟨ht0, hd0, hti, hdi⟩ := directOpinionAt_bounds cfg log subj now e hmu0 hmu1
  have hIeq := directOpinionAt_I cfg log subj now e
  have hIpos : 0 < (directOpinionAt cfg log subj now e).Opinion.I := by
    rw [hIeq]; exact uncOf_pos log subj e
  have hIle : (directOpinionAt cfg log subj now e).Opinion.I ≤ 1 := by
    rw [hIeq]; exact uncOf_le_one log subj e
  refine ⟨?_, ht0, by linarith, hd0, by linarith, hIpos, hIle⟩
  unfold effectiveEvidence at hev
  dsimp only at hev
  unfold directOpinionAt
  dsimp only
  rw [if_pos hev]
  dsimp only
  have hs : (1 - thetaOf cfg log subj now) * ((aggInteraction log subj e).PosEvents : ℝ)
      + thetaOf cfg log subj now * ((aggInteraction log subj e).NegEvents : ℝ) ≠ 0 :=
    ne_of_gt hev
  field_simp
  ring

/-- Witness for `direct_opinion_normalized`: one positive interaction A→B
under `cfgBase` (`μ = 1`), where `θ = 1/(1+exp 0) = 1/2` and
`α + β = 1/2 > 0`. -/
theorem direct_opinion_normalized_witness :
    (directOpinionAt cfgBase logPos1 "B" 0 "A").Opinion.T +
      (directOpinionAt cfgBase logPos1 "B" 0 "A").Opinion.D +
      (directOpinionAt cfgBase logPos1 "B" 0 "A").Opinion.I = 1 ∧
    0 ≤ (directOpinionAt cfgBase logPos1 "B" 0 "A").Opinion.T := by
  have hevals : evaluatorsOf logPos1 "B" = ["A"] := rfl
  have hagg : aggInteraction logPos1 "B" "A" =
      ⟨"A", "B", 1, 0, 0, [], [], .normalTx, 0⟩ := rfl
  have hsim : computeTrajectorySimilarity cfgBase
      ([] : List RVector) ([] : List RVector) = 0 := by
    unfold computeTrajectorySimilarity cosineSimilarity
    norm_num
  have havg : avgCnt logPos1 "B" = 1 := by
    unfold avgCnt
    rw [hevals]
    dsimp only
    rw [List.map_singleton]
    have : eventCount logPos1 "B" "A" = 1 := rfl
    rw [this]
    norm_num
  have htim : timFactor cfgBase 0 0 = 1 := by
    unfold timFactor
    norm_num
    unfold cfgBase
    norm_num
  have hw : weightOf cfgBase logPos1 "B" 0 "A" = 1 := by
    unfold weightOf
    rw [hagg]
    dsimp only
    rw [hsim, havg, htim]
    have : eventCount logPos1 "B" "A" = 1 := rfl
    rw [this]
    show (cfgBase.Rho1 * (((1 : ℕ) : ℝ) / 1) + cfgBase.Rho2 * 1 + cfgBase.Rho3 * 0) *
      calculateTransactionWeight RTxType.normalTx 0 = 1
    unfold calculateTransactionWeight cfgBase
    norm_num
  have htheta : thetaOf cfgBase logPos1 "B" 0 = 1 / 2 := by
    unfold thetaOf
    rw [hevals]
    dsimp only
    rw [List.map_singleton, List.map_singleton, hw, hagg]
    norm_num [Real.exp_zero]
    show cfgBase.Mu / 2 = 1 / 2
    unfold cfgBase
    norm_num
  have hev : 0 < effectiveEvidence cfgBase logPos1 "B" 0 "A" := by
    unfold effectiveEvidence
    rw [hagg, htheta]
    dsimp only
    norm_num
  have h := direct_opinion_normalized cfgBase logPos1 "B" 0 "A"
    (by rw [hevals]; exact List.mem_singleton.mpr rfl)
    (by unfold cfgBase; norm_num) (by unfold cfgBase; norm_num) hev
  exact ⟨h.1, h.2.1⟩

/-- C2.  `fuseOpinions` uses the direct aggregate verbatim when there are no
indirect opinions, but it divides by `k` with no `k = 0` special case: on
the concrete log with mutual interactions A↔B and config `ρ = (0,0,1)` (all
direct weights 0 because the trajectories are empty), the target B has an
indirect source, yet the consensus denominator `k` is exactly 0 — the Go
floats there compute `0/0 = NaN` and the returned reputation is NaN, not
the direct-aggregate fallback the spec requires. -/
theorem fusion_divides_by_zero_k :
    (∀ dir : List DirectOpinion, fuseOpinions dir [] = fuseDirectAggregate dir) ∧
    indirectSources logMutual "B" ≠ [] ∧
    fuseK (directOpinionsOf cfgRho3 logMutual "B" 0)
      (indirectOpinionsOf cfgRho3 logMutual 0 "B") = 0 := by
  refine ⟨?_, ?_, ?_⟩
  · intro dir
    unfold fuseOpinions
    simp
  · have : indirectSources logMutual "B" = ["A"] := rfl
    rw [this]
    simp
  · have hevals : evaluatorsOf logMutual "B" = ["A"] := rfl
    have hagg : aggInteraction logMutual "B" "A" =
        ⟨"A", "B", 1, 0, 0, [], [], .normalTx, 0⟩ := rfl
    have hsim : computeTrajectorySimilarity cfgRho3
        ([] : List RVector) ([] : List RVector) = 0 := by
      unfold computeTrajectorySimilarity cosineSimilarity
      norm_num
    have hw : weightOf cfgRho3 logMutual "B" 0 "A" = 0 := by
      unfold weightOf
      rw [hagg]
      dsimp only
      rw [hsim]
      show ((cfgRho3.Rho1 * _ + cfgRho3.Rho2 * _ + cfgRho3.Rho3 * 0) *
        calculateTransactionWeight RTxType.normalTx 0) = 0
      unfold calculateTransactionWeight cfgRho3
      norm_num
    have hA : fuseDirectAggregate (directOpinionsOf cfgRho3 logMutual "B" 0)
        = ⟨0, 0, 0⟩ := by
      unfold directOpinionsOf
      rw [hevals, List.map_singleton]
      unfold fuseDirectAggregate
      rw [List.map_singleton, directOpinionAt_weight, hw]
      norm_num
    unfold fuseK
    rw [hA]
    dsimp only
    ring

theorem computeReputation_no_inbound (cfg : RConfig) (log : List RInteraction)
    (target : String) (now : ℝ) (h : ∀ i ∈ log, i.To ≠ target) :
    computeReputation cfg log target now = 1 / 2 := by
  have hnil : inboundOf log target = [] := by
    unfold inboundOf
    rw [List.filter_eq_nil_iff]
    intro i hi
    simpa using h i hi
  unfold computeReputation
  rw [hnil]
  rfl

/-- The direct aggregate lies in `[0,1]` under `T + γ·I` whenever every
direct weight is non-negative, `0 ≤ μ ≤ 1` and `0 ≤ γ ≤ 1`. -/
theorem direct_aggregate_score_range (cfg : RConfig) (log : List RInteraction)
    (target : String) (now : ℝ)
    (hmu0 : 0 ≤ cfg.Mu) (hmu1 : cfg.Mu ≤ 1)
    (hg0 : 0 ≤ cfg.Gamma) (hg1 : cfg.Gamma ≤ 1)
    (hwpos : ∀ e ∈ evaluatorsOf log target, 0 ≤ weightOf cfg log target now e) :
    0 ≤ (fuseDirectAggregate (directOpinionsOf cfg log target now)).T +
        cfg.Gamma * (fuseDirectAggregate (directOpinionsOf cfg log target now)).I ∧
    (fuseDirectAggregate (directOpinionsOf cfg log target now)).T +
        cfg.Gamma * (fuseDirectAggregate (directOpinionsOf cfg log target now)).I ≤ 1 := by
  unfold fuseDirectAggregate directOpinionsOf
  rw [List.map_map, List.map_map, List.map_map, List.map_map]
  simp only [Function.comp_def]
  set evals := evaluatorsOf log target with hevals
  have hweq : ∀ e ∈ evals, (directOpinionAt cfg log target now e).Weight
      = weightOf cfg log target now e := fun e _ => directOpinionAt_weight _ _ _ _ _
  have hw0 : ∀ e ∈ evals, 0 ≤ (directOpinionAt cfg log target now e).Weight := by
    intro e hee
    rw [hweq e hee]
    exact hwpos e hee
  have hS0 : 0 ≤ (evals.map (fun e => (directOpinionAt cfg log target now e).Weight)).sum := by
    apply List.sum_nonneg
    intro x hx
    obtain ⟨e, hee, rfl⟩ := List.mem_map.mp hx
    exact hw0 e hee
  split
  · rename_i hS
    set S := (evals.map (fun e => (directOpinionAt cfg log target now e).Weight)).sum
      with hSdef
    have hterm0 : ∀ e ∈ evals,
        0 ≤ (directOpinionAt cfg log target now e).Opinion.T *
              (directOpinionAt cfg log target now e).Weight +
            cfg.Gamma * ((directOpinionAt cfg log target now e).Opinion.I *
              (directOpinionAt cfg log target now e).Weight) := by
      intro e hee
      obtain ⟨ht0, _, _, _⟩ := directOpinionAt_bounds cfg log target now e hmu0 hmu1
      have hI0 : 0 ≤ (directOpinionAt cfg log target now e).Opinion.I := by
        rw [directOpinionAt_I]
        exact le_of_lt (uncOf_pos log target e)
      have := hw0 e hee
      positivity
    have hterm1 : ∀ e ∈ evals,
        (directOpinionAt cfg log target now e).Opinion.T *
            (directOpinionAt cfg log target now e).Weight +
          cfg.Gamma * ((directOpinionAt cfg log target now e).Opinion.I *
            (directOpinionAt cfg log target now e).Weight)
        ≤ (directOpinionAt cfg log target now e).Weight := by
      intro e hee
      obtain ⟨ht0, _, hti, _⟩ := directOpinionAt_bounds cfg log target now e hmu0 hmu1
      have hI0 : 0 ≤ (directOpinionAt cfg log target now e).Opinion.I := by
        rw [directOpinionAt_I]
        exact le_of_lt (uncOf_pos log target e)
      have hcomb : (directOpinionAt cfg log target now e).Opinion.T +
          cfg.Gamma * (directOpinionAt cfg log target now e).Opinion.I ≤ 1 := by
        nlinarith
      have hwnn := hw0 e hee
      nlinarith
    have hsum_split :
        (evals.map (fun e => (directOpinionAt cfg log target now e).Opinion.T *
            (directOpinionAt cfg log target now e).Weight)).sum
          + cfg.Gamma * (evals.map (fun e =>
              (directOpinionAt cfg log target now e).Opinion.I *
              (directOpinionAt cfg log target now e).Weight)).sum
        = (evals.map (fun e =>
            (directOpinionAt cfg log target now e).Opinion.T *
              (directOpinionAt cfg log target now e).Weight +
            cfg.Gamma * ((directOpinionAt cfg log target now e).Opinion.I *
              (directOpinionAt cfg log target now e).Weight))).sum := by
      rw [List.sum_map_add]
      congr 1
      rw [← List.sum_map_mul_left]
    have hN0 : 0 ≤ (evals.map (fun e =>
        (directOpinionAt cfg log target now e).Opinion.T *
          (directOpinionAt cfg log target now e).Weight +
        cfg.Gamma * ((directOpinionAt cfg log target now e).Opinion.I *
          (directOpinionAt cfg log target now e).Weight))).sum := by
      apply List.sum_nonneg
      intro x hx
      obtain ⟨e, hee, rfl⟩ := List.mem_map.mp hx
      exact hterm0 e hee
    have hNS : (evals.map (fun e =>
        (directOpinionAt cfg log target now e).Opinion.T *
          (directOpinionAt cfg log target now e).Weight +
        cfg.Gamma * ((directOpinionAt cfg log target now e).Opinion.I *
          (directOpinionAt cfg log target now e).Weight))).sum ≤ S := by
      rw [hSdef]
      exact List.sum_le_sum hterm1
    dsimp only
    constructor
    · have heq : (evals.map (fun e => (directOpinionAt cfg log target now e).Opinion.T *
            (directOpinionAt cfg log target now e).Weight)).sum / S
          + cfg.Gamma * ((evals.map (fun e =>
              (directOpinionAt cfg log target now e).Opinion.I *
              (directOpinionAt cfg log target now e).Weight)).sum / S)
          = ((evals.map (fun e =>
            (directOpinionAt cfg log target now e).Opinion.T *
              (directOpinionAt cfg log target now e).Weight +
            cfg.Gamma * ((directOpinionAt cfg log target now e).Opinion.I *
              (directOpinionAt cfg log target now e).Weight))).sum) / S := by
        rw [← hsum_split]
        ring
      rw [heq]
      exact div_nonneg hN0 (le_of_lt hS)
    · have heq : (evals.map (fun e => (directOpinionAt cfg log target now e).Opinion.T *
            (directOpinionAt cfg log target now e).Weight)).sum / S
          + cfg.Gamma * ((evals.map (fun e =>
              (directOpinionAt cfg log target now e).Opinion.I *
              (directOpinionAt cfg log target now e).Weight)).sum / S)
          = ((evals.map (fun e =>
            (directOpinionAt cfg log target now e).Opinion.T *
              (directOpinionAt cfg log target now e).Weight +
            cfg.Gamma * ((directOpinionAt cfg log target now e).Opinion.I *
              (directOpinionAt cfg log target now e).Weight))).sum) / S := by
        rw [← hsum_split]
        ring
      rw [heq]
      rw [div_le_one hS]
      exact hNS
  · dsimp only
    constructor
    · simp [hg0]
    · norm_num

/-- C1, amended.  `ComputeReputation` returns exactly 0.5 for a target with
no inbound interactions.  For a target with at least one inbound
interaction, the score lies in `[0,1]` provided the target has no indirect
sources (so the consensus division is skipped), `0 ≤ μ ≤ 1`, `0 ≤ γ ≤ 1`
and every aggregated direct weight is non-negative; without those provisos
the score can leave `[0,1]` (see the counterexample). -/
theorem reputation_range (cfg : RConfig) (log : List RInteraction)
    (target : String) (now : ℝ) :
    ((∀ i ∈ log, i.To ≠ target) → computeReputation cfg log target now = 1 / 2) ∧
    (indirectSources log target = [] →
     0 ≤ cfg.Mu → cfg.Mu ≤ 1 → 0 ≤ cfg.Gamma → cfg.Gamma ≤ 1 →
     (∀ e ∈ evaluatorsOf log target, 0 ≤ weightOf cfg log target now e) →
     0 ≤ computeReputation cfg log target now ∧
       computeReputation cfg log target now ≤ 1) := by
  refine ⟨computeReputation_no_inbound cfg log target now, ?_⟩
  intro hind hmu0 hmu1 hg0 hg1 hwpos
  have hindop : indirectOpinionsOf cfg log now target = [] := by
    unfold indirectOpinionsOf
    rw [hind]
    rfl
  unfold computeReputation
  split
  · constructor <;> norm_num [InitialReputation]
  · rw [hindop]
    have hfuse : fuseOpinions (directOpinionsOf cfg log target now) []
        = fuseDirectAggregate (directOpinionsOf cfg log target now) := by
      unfold fuseOpinions
      simp
    dsimp only
    rw [hfuse]
    exact direct_aggregate_score_range cfg log target now hmu0 hmu1 hg0 hg1 hwpos

/-- Witness for `reputation_range`: under `cfgBase`, a node with no inbound
interactions scores exactly 0.5, and the single-evaluator target B scores
inside `[0,1]`. -/
theorem reputation_range_witness :
    computeReputation cfgBase logPos1 "C" 0 = 1 / 2 ∧
    0 ≤ computeReputation cfgBase logPos1 "B" 0 ∧
    computeReputation cfgBase logPos1 "B" 0 ≤ 1 := by
  have hevals : evaluatorsOf logPos1 "B" = ["A"] := rfl
  have hagg : aggInteraction logPos1 "B" "A" =
      ⟨"A", "B", 1, 0, 0, [], [], .normalTx, 0⟩ := rfl
  have hsim : computeTrajectorySimilarity cfgBase
      ([] : List RVector) ([] : List RVector) = 0 := by
    unfold computeTrajectorySimilarity cosineSimilarity
    norm_num
  have havg : avgCnt logPos1 "B" = 1 := by
    unfold avgCnt
    rw [hevals]
    dsimp only
    rw [List.map_singleton]
    have : eventCount logPos1 "B" "A" = 1 := rfl
    rw [this]
    norm_num
  have htim : timFactor cfgBase 0 0 = 1 := by
    unfold timFactor
    norm_num
    unfold cfgBase
    norm_num
  have hw : weightOf cfgBase logPos1 "B" 0 "A" = 1 := by
    unfold weightOf
    rw [hagg]
    dsimp only
    rw [hsim, havg, htim]
    have : eventCount logPos1 "B" "A" = 1 := rfl
    rw [this]
    show (cfgBase.Rho1 * (((1 : ℕ) : ℝ) / 1) + cfgBase.Rho2 * 1 + cfgBase.Rho3 * 0) *
      calculateTransactionWeight RTxType.normalTx 0 = 1
    unfold calculateTransactionWeight cfgBase
    norm_num
  have h1 := (reputation_range cfgBase logPos1 "C" 0).1 ?_
  · have h2 := (reputation_range cfgBase logPos1 "B" 0).2 rfl
      (by unfold cfgBase; norm_num) (by unfold cfgBase; norm_num)
      (by unfold cfgBase; norm_num) (by unfold cfgBase; norm_num) ?_
    · exact ⟨h1, h2.1, h2.2⟩
    · intro e hee
      rw [hevals] at hee
      rw [List.mem_singleton.mp hee, hw]
      norm_num
  · intro i hi
    rw [show logPos1 = [⟨"A", "B", 1, 0, 0, [], [], .normalTx, 0⟩] from rfl] at hi
    rw [List.mem_singleton.mp hi]
    simp

theorem fuseDirectAggregate_singleton_w1 (o : SubjectiveOpinion) :
    fuseDirectAggregate [⟨o, 1⟩] = o := by
  unfold fuseDirectAggregate
  cases o with
  | mk t d i => norm_num

/-- C1, counterexample.  With config `μ = 10, γ = 0, ρ = (1,0,0), τ =
(1,0,0)` — all finite, conventions `ρ1+ρ2+ρ3 = 1` and `τ1+τ2+τ3 = 1`
satisfied, no range check rejects it — a target with one inbound interaction
(1 positive and 1 negative event) gets `θ = 10/(1+e) > 1`, hence `α < 0` and
a *negative* reputation: the score of B is `(1 − 10/(1+e))/2 < 0 ∉ [0,1]`. -/
theorem reputation_outside_range :
    inboundOf logPosNeg "B" ≠ [] ∧
    computeReputation cfgMu10 logPosNeg "B" 0 < 0 := by
  have hevals : evaluatorsOf logPosNeg "B" = ["A"] := rfl
  have hagg : aggInteraction logPosNeg "B" "A" =
      ⟨"A", "B", 1, 1, 0, [], [], .normalTx, 0⟩ := rfl
  have hsim : computeTrajectorySimilarity cfgMu10
      ([] : List RVector) ([] : List RVector) = 0 := by
    unfold computeTrajectorySimilarity cosineSimilarity
    norm_num
  have havg : avgCnt logPosNeg "B" = 2 := by
    unfold avgCnt
    rw [hevals]
    dsimp only
    rw [List.map_singleton]
    have : eventCount logPosNeg "B" "A" = 2 := rfl
    rw [this]
    norm_num
  have htim : timFactor cfgMu10 0 0 = 1 := by
    unfold timFactor
    norm_num
    unfold cfgMu10
    norm_num
  have hw : weightOf cfgMu10 logPosNeg "B" 0 "A" = 1 := by
    unfold weightOf
    rw [hagg]
    dsimp only
    rw [hsim, havg, htim]
    have : eventCount logPosNeg "B" "A" = 2 := rfl
    rw [this]
    show (cfgMu10.Rho1 * (((2 : ℕ) : ℝ) / 2) + cfgMu10.Rho2 * 1 + cfgMu10.Rho3 * 0) *
      calculateTransactionWeight RTxType.normalTx 0 = 1
    unfold calculateTransactionWeight cfgMu10
    norm_num
  have htheta : thetaOf cfgMu10 logPosNeg "B" 0 = 10 / (1 + Real.exp 1) := by
    unfold thetaOf
    rw [hevals]
    dsimp only
    rw [List.map_singleton, List.map_singleton, hw, hagg]
    norm_num
    show cfgMu10.Mu / (1 + Real.exp 1) = 10 / (1 + Real.exp 1)
    unfold cfgMu10
    norm_num
  have hIi : uncOf logPosNeg "B" "A" = 1 / 2 := by
    unfold uncOf
    have : eventCount logPosNeg "B" "A" = 2 := rfl
    rw [this]
    norm_num
  have hth1 : 1 < thetaOf cfgMu10 logPosNeg "B" 0 := by
    rw [htheta]
    rw [one_lt_div (by positivity)]
    have := Real.exp_one_lt_d9
    linarith
  have hth3 : thetaOf cfgMu10 logPosNeg "B" 0 < 3 := by
    rw [htheta]
    rw [div_lt_iff₀ (by positivity)]
    have := Real.exp_one_gt_d9
    linarith
  have hT : (directOpinionAt cfgMu10 logPosNeg "B" 0 "A").Opinion.T
      = (1 - thetaOf cfgMu10 logPosNeg "B" 0) / 2 := by
    unfold directOpinionAt
    rw [hagg]
    dsimp only
    rw [if_pos (by push_cast; linarith)]
    rw [hIi]
    push_cast
    have hden : (1 - thetaOf cfgMu10 logPosNeg "B" 0) * 1 +
        thetaOf cfgMu10 logPosNeg "B" 0 * 1 = 1 := by ring
    rw [hden]
    ring
  have hI : (directOpinionAt cfgMu10 logPosNeg "B" 0 "A").Opinion.I = 1 / 2 := by
    rw [directOpinionAt_I]
    exact hIi
  have hfused : fuseOpinions (directOpinionsOf cfgMu10 logPosNeg "B" 0)
      (indirectOpinionsOf cfgMu10 logPosNeg 0 "B")
      = (directOpinionAt cfgMu10 logPosNeg "B" 0 "A").Opinion := by
    have hindop : indirectOpinionsOf cfgMu10 logPosNeg 0 "B" = [] := by
      unfold indirectOpinionsOf
      rw [show indirectSources logPosNeg "B" = [] from rfl]
      rfl
    rw [hindop]
    unfold directOpinionsOf
    rw [hevals, List.map_singleton]
    have hdw : directOpinionAt cfgMu10 logPosNeg "B" 0 "A"
        = ⟨(directOpinionAt cfgMu10 logPosNeg "B" 0 "A").Opinion, 1⟩ := by
      have := directOpinionAt_weight cfgMu10 logPosNeg "B" 0 "A"
      rw [hw] at this
      cases h : directOpinionAt cfgMu10 logPosNeg "B" 0 "A" with
      | mk o wgt =>
        rw [h] at this
        simp at this
        rw [this]
    rw [hdw]
    unfold fuseOpinions
    simp [fuseDirectAggregate_singleton_w1]
  constructor
  · intro hcon
    have : ("A" : String) ∈ evaluatorsOf logPosNeg "B" := by
      rw [hevals]; exact List.mem_singleton.mpr rfl
    unfold evaluatorsOf at this
    rw [hcon] at this
    simp at this
  · unfold computeReputation
    rw [show (inboundOf logPosNeg "B").isEmpty = false from rfl]
    dsimp only
    rw [hfused, hT, hI]
    show (1 - thetaOf cfgMu10 logPosNeg "B" 0) / 2 + cfgMu10.Gamma * (1 / 2) < 0
    have hg : cfgMu10.Gamma = 0 := rfl
    rw [hg]
    linarith

end MSMWSL
